/-
Verification of the github_mcp_server repository (Express + Octokit).

Embedding conventions:
- JavaScript strings are modelled as lists of natural numbers (`JStr`),
  read as the UTF-8 bytes of the string; every real string satisfies
  `∀ b ∈ s, b < 256`.  `Buffer.byteLength(s, "utf8")` is then `s.length`,
  `split("\n")` splits on byte 10, and `toLowerCase` lowers ASCII letters
  (Unicode case tables are outside the model).
- JavaScript plain objects used as string-keyed maps (`context.files`,
  the `contextStore` Map) are insertion-ordered association lists; own
  property assignment overwrites in place, `delete` removes the entry.
  Prototype-chain effects are outside the model.
- Octokit is the external collaborator.  Each handler is embedded as a
  function taking an oracle (`Octo`, one Lean function per remote call)
  and returning its HTTP response together with the exact trace of
  remote calls it issued, with the arguments the source supplies.
- Fallible remote calls return `Option`/`Except`; `none`/`error` is a
  thrown exception, caught by the try/catch of the handler.
-/
import Mathlib

/-- A JavaScript string, as its list of UTF-8 bytes. -/
abbrev JStr := List Nat

/-- Bytes of the string are valid (below 256). -/
def ValidBytes (s : JStr) : Prop := ∀ b ∈ s, b < 256

instance : DecidablePred ValidBytes := fun s =>
  inferInstanceAs (Decidable (∀ b ∈ s, b < 256))

/-! ## JavaScript object / Map model: insertion-ordered association lists -/

/-- Look up an own property / Map entry. -/
def getKey {α : Type} (m : List (JStr × α)) (k : JStr) : Option α :=
  match m with
  | [] => none
  | (k', v) :: rest => if k' = k then some v else getKey rest k

/-- JavaScript `obj[k] = v` / `Map.set`: overwrite in place, else append. -/
def setKey {α : Type} (m : List (JStr × α)) (k : JStr) (v : α) : List (JStr × α) :=
  match m with
  | [] => [(k, v)]
  | (k', v') :: rest => if k' = k then (k, v) :: rest else (k', v') :: setKey rest k v

/-- JavaScript `delete obj[k]` / `Map.delete`: remove the entry for `k`. -/
def delKey {α : Type} (m : List (JStr × α)) (k : JStr) : List (JStr × α) :=
  m.filter (fun e => decide (e.1 ≠ k))

theorem getKey_setKey_self {α : Type} (m : List (JStr × α)) (k : JStr) (v : α) :
    getKey (setKey m k v) k = some v := by
  induction m with
  | nil => simp [setKey, getKey]
  | cons e rest ih =>
    by_cases h : e.1 = k
    · simp [setKey, getKey, h]
    · simp [setKey, getKey, h, ih]

theorem getKey_setKey_ne {α : Type} (m : List (JStr × α)) (k k' : JStr) (v : α)
    (h : k ≠ k') : getKey (setKey m k v) k' = getKey m k' := by
  induction m with
  | nil => simp [setKey, getKey, h]
  | cons e rest ih =>
    by_cases he : e.1 = k
    · simp [setKey, getKey, he, h]
    · simp [setKey, getKey, he, ih]

theorem setKey_setKey_self {α : Type} (m : List (JStr × α)) (k : JStr) (v v' : α) :
    setKey (setKey m k v) k v' = setKey m k v' := by
  induction m with
  | nil => simp [setKey]
  | cons e rest ih =>
    by_cases h : e.1 = k
    · simp [setKey, h]
    · simp [setKey, h, ih]

theorem getKey_delKey_self {α : Type} (m : List (JStr × α)) (k : JStr) :
    getKey (delKey m k) k = none := by
  induction m with
  | nil => simp [delKey, getKey]
  | cons e rest ih =>
    by_cases h : e.1 = k
    · simpa [delKey, getKey, h] using ih
    · simpa [delKey, getKey, h] using ih

theorem getKey_isSome_of_mem {α : Type} (m : List (JStr × α)) (k : JStr) (v : α)
    (h : (k, v) ∈ m) : (getKey m k).isSome := by
  induction m with
  | nil => simp at h
  | cons e rest ih =>
    rcases List.mem_cons.mp h with h' | h'
    · subst h'
      simp [getKey]
    · by_cases he : e.1 = k
      · simp [getKey, he]
      · simpa [getKey, he] using ih h'

/-! ## Content codec: `encodeContent` / `decodeContent` (base64, from the source)

`const encodeContent = (content) => Buffer.from(content, "utf8").toString("base64");`
`const decodeContent = (content) => Buffer.from(content, "base64").toString("utf8");`
-/

/-- Sextet values of the base64 groups of a byte string (3 bytes to 4 sextets). -/
def b64groups : List Nat → List Nat
  | a :: b :: c :: rest =>
      a / 4 :: ((a % 4) * 16 + b / 16) :: ((b % 16) * 4 + c / 64) :: c % 64 :: b64groups rest
  | [a, b] => [a / 4, (a % 4) * 16 + b / 16, (b % 16) * 4]
  | [a] => [a / 4, (a % 4) * 16]
  | [] => []

/-- Inverse regrouping: 4 sextets back to 3 bytes. -/
def b64ungroup : List Nat → List Nat
  | w :: x :: y :: z :: rest =>
      (w * 4 + x / 16) :: ((x % 16) * 16 + y / 4) :: ((y % 4) * 64 + z) :: b64ungroup rest
  | [w, x, y] => [w * 4 + x / 16, (x % 16) * 16 + y / 4]
  | [w, x] => [w * 4 + x / 16]
  | [_] => []
  | [] => []

/-- Base64 alphabet: sextet value to character code. -/
def b64char (n : Nat) : Nat :=
  if n < 26 then 65 + n
  else if n < 52 then 97 + (n - 26)
  else if n < 62 then 48 + (n - 52)
  else if n = 62 then 43
  else 47

/-- Base64 alphabet inverse: character code to sextet value. -/
def b64val (c : Nat) : Nat :=
  if 65 ≤ c ∧ c ≤ 90 then c - 65
  else if 97 ≤ c ∧ c ≤ 122 then 26 + (c - 97)
  else if 48 ≤ c ∧ c ≤ 57 then 52 + (c - 48)
  else if c = 43 then 62
  else if c = 47 then 63
  else 0

/-- Padding characters appended by the encoder (61 is the code of the pad char). -/
def b64pad (len : Nat) : List Nat :=
  if len % 3 = 1 then [61, 61] else if len % 3 = 2 then [61] else []

/-- The source helper `encodeContent`: UTF-8 bytes to base64 character codes. -/
def encodeContent (bs : JStr) : JStr :=
  (b64groups bs).map b64char ++ b64pad bs.length

/-- The source helper `decodeContent`: base64 character codes back to bytes (pad chars ignored,
as the Node base64 decoder does). -/
def decodeContent (s : JStr) : JStr :=
  b64ungroup ((s.filter (fun c => decide (c ≠ 61))).map b64val)

theorem b64groups_lt (bs : List Nat) (h : ValidBytes bs) :
    ∀ v ∈ b64groups bs, v < 64 := by
  induction bs using b64groups.induct with
  | case1 a b c rest ih =>
    have ha := h a (by simp)
    have hb := h b (by simp)
    have hc := h c (by simp)
    have hrest : ValidBytes rest := fun x hx => h x (by simp [hx])
    intro v hv
    simp only [b64groups, List.mem_cons] at hv
    rcases hv with hv | hv | hv | hv | hv
    · omega
    · omega
    · omega
    · omega
    · exact ih hrest v hv
  | case2 a b =>
    have ha := h a (by simp)
    have hb := h b (by simp)
    intro v hv
    simp only [b64groups, List.mem_cons, List.not_mem_nil, or_false] at hv
    rcases hv with hv | hv | hv <;> omega
  | case3 a =>
    have ha := h a (by simp)
    intro v hv
    simp only [b64groups, List.mem_cons, List.not_mem_nil, or_false] at hv
    rcases hv with hv | hv <;> omega
  | case4 =>
    intro v hv
    simp [b64groups] at hv

theorem b64val_b64char : ∀ n < 64, b64val (b64char n) = n := by decide

theorem b64char_ne_pad : ∀ n < 64, b64char n ≠ 61 := by decide

theorem b64ungroup_b64groups (bs : List Nat) (h : ValidBytes bs) :
    b64ungroup (b64groups bs) = bs := by
  induction bs using b64groups.induct with
  | case1 a b c rest ih =>
    have ha := h a (by simp)
    have hb := h b (by simp)
    have hc := h c (by simp)
    have hrest : ValidBytes rest := fun x hx => h x (by simp [hx])
    rw [b64groups, b64ungroup, ih hrest]
    refine congrArg₂ _ (by omega) (congrArg₂ _ (by omega) (congrArg₂ _ (by omega) rfl))
  | case2 a b =>
    have ha := h a (by simp)
    have hb := h b (by simp)
    rw [b64groups, b64ungroup]
    refine congrArg₂ _ (by omega) (congrArg₂ _ (by omega) rfl)
  | case3 a =>
    have ha := h a (by simp)
    rw [b64groups, b64ungroup]
    refine congrArg₂ _ (by omega) rfl
  | case4 => rfl

theorem map_b64_roundtrip (l : List Nat) (hl : ∀ v ∈ l, v < 64) :
    l.map (fun v => b64val (b64char v)) = l := by
  induction l with
  | nil => rfl
  | cons x xs ih =>
    simp only [List.map_cons, b64val_b64char x (hl x (by simp)),
      ih (fun v hv => hl v (by simp [hv]))]

theorem filter_pad_encode (bs : JStr) (h : ValidBytes bs) :
    ((b64groups bs).map b64char ++ b64pad bs.length).filter (fun c => decide (c ≠ 61)) =
      (b64groups bs).map b64char := by
  rw [List.filter_append]
  have h1 : ((b64groups bs).map b64char).filter (fun c => decide (c ≠ 61)) =
      (b64groups bs).map b64char := by
    apply List.filter_eq_self.mpr
    intro c hc
    rcases List.mem_map.mp hc with ⟨v, hv, rfl⟩
    simpa using b64char_ne_pad v (b64groups_lt bs h v hv)
  have h2 : (b64pad bs.length).filter (fun c => decide (c ≠ 61)) = [] := by
    unfold b64pad
    split <;> [simp; split <;> simp]
  rw [h1, h2, List.append_nil]

/-- Decoding inverts encoding on every valid byte string. -/
theorem decode_encode (bs : JStr) (h : ValidBytes bs) :
    decodeContent (encodeContent bs) = bs := by
  unfold decodeContent encodeContent
  rw [filter_pad_encode bs h, List.map_map]
  have heq : (b64groups bs).map (b64val ∘ b64char) = b64groups bs := by
    have := map_b64_roundtrip (b64groups bs) (b64groups_lt bs h)
    simpa [Function.comp] using this
  rw [heq]
  exact b64ungroup_b64groups bs h

/-! ## Context Store (from src/unnamed/part_000, the Joi-validated server)

`contextStore` is a `Map` from context id to
`{ created, files: {}, repoInfo: null }`; a file entry is
`{ content: encodeContent(content), added, size: Buffer.byteLength(content, "utf8") }`.
Timestamps are naturals (milliseconds since epoch).
-/

/-- The byte string "main" (the default branch literal). -/
def mainStr : JStr := [109, 97, 105, 110]

/-- One staged file inside a context (content stored base64-encoded). -/
structure FileEntry where
  content : JStr
  added : Nat
  size : Nat
deriving DecidableEq, Repr

/-- One context: `{ created, files, repoInfo }`. -/
structure Ctx where
  created : Nat
  files : List (JStr × FileEntry)
  repoInfo : Option (JStr × JStr)
deriving DecidableEq, Repr

/-- The process-wide `contextStore` map. -/
abbrev Store := List (JStr × Ctx)

/-! ### Joi validation semantics (only the combinators the schemas use)

`Joi.string().required()` demands a present, non-empty string;
`Joi.string().optional()` allows absence but rejects an empty string;
`Joi.string().default(d)` substitutes `d` when the key is absent.
-/

/-- Semantics of `Joi.string().required()`: present and non-empty. -/
def joiReqStr : Option JStr → Option JStr
  | none => none
  | some s => if s = [] then none else some s

/-- Semantics of `Joi.string().optional()`: absent is fine, empty is a validation error.
Returns `none` on error, `some v` with the validated optional value otherwise. -/
def joiOptStr : Option JStr → Option (Option JStr)
  | none => some none
  | some s => if s = [] then none else some (some s)

/-- Semantics of `Joi.string().default(d)`: absent becomes `d`, empty is a validation error. -/
def joiDefStr (d : JStr) : Option JStr → Option JStr
  | none => some d
  | some s => if s = [] then none else some s

/-- Raw `/v1/add_file` request body (fields possibly absent). -/
structure AddFileBody where
  context_id : Option JStr
  path : Option JStr
  content : Option JStr
  repo : Option JStr
  branch : Option JStr
deriving DecidableEq, Repr

/-- The `/v1/add_file` body after `schemas.addFile` validation. -/
structure AddFileReq where
  context_id : JStr
  path : JStr
  content : JStr
  repo : Option JStr
  branch : JStr
deriving DecidableEq, Repr

/-- The `schemas.addFile` validation (context_id, path, content required;
repo optional; branch defaults to "main"). -/
def validateAddFile (b : AddFileBody) : Option AddFileReq :=
  match joiReqStr b.context_id, joiReqStr b.path, joiReqStr b.content,
        joiOptStr b.repo, joiDefStr mainStr b.branch with
  | some cid, some p, some c, some r, some br => some ⟨cid, p, c, r, br⟩
  | _, _, _, _, _ => none

/-- JavaScript `s || d` on strings: the empty string is falsy. -/
def jsOr (s d : JStr) : JStr := if s = [] then d else s

/-- Response of `/v1/add_file`. -/
inductive AddFileResp where
  | validationErr
  | ctxNotFound
  | ok (fileCount : Nat)
deriving DecidableEq, Repr

/-- HTTP status of an `/v1/add_file` response (400 / 404 / 200 in the source). -/
def AddFileResp.status : AddFileResp → Nat
  | .validationErr => 400
  | .ctxNotFound => 404
  | .ok _ => 200

/-- The `/v1/add_file` handler (after validation middleware). -/
def addFileHandler (store : Store) (now : Nat) (req : AddFileReq) :
    Store × AddFileResp :=
  match getKey store req.context_id with
  | none => (store, .ctxNotFound)
  | some ctx =>
      let entry : FileEntry :=
        ⟨encodeContent req.content, now, req.content.length⟩
      let ctx' : Ctx :=
        { ctx with
          files := setKey ctx.files req.path entry
          repoInfo :=
            match req.repo with
            | some r => some (r, jsOr req.branch mainStr)
            | none => ctx.repoInfo }
      (setKey store req.context_id ctx', .ok ctx'.files.length)

/-- The `/v1/add_file` endpoint: `validateInput(schemas.addFile)` then the handler. -/
def addFileEndpoint (store : Store) (now : Nat) (b : AddFileBody) :
    Store × AddFileResp :=
  match validateAddFile b with
  | none => (store, .validationErr)
  | some req => addFileHandler store now req

/-- Raw `/v1/remove_file` request body. -/
structure RemoveFileBody where
  context_id : Option JStr
  path : Option JStr
deriving DecidableEq, Repr

/-- Response of `/v1/remove_file`. -/
inductive RfResp where
  | missingField
  | ctxNotFound
  | fileNotFound
  | removed
deriving DecidableEq, Repr

/-- HTTP status of a `/v1/remove_file` response. -/
def RfResp.status : RfResp → Nat
  | .missingField => 400
  | .ctxNotFound => 404
  | .fileNotFound => 404
  | .removed => 200

/-- Error message of a `/v1/remove_file` response, as in the source. -/
def RfResp.msg : RfResp → String
  | .missingField => "context_id and path required"
  | .ctxNotFound => "Context not found"
  | .fileNotFound => "File not found in context"
  | .removed => "File removed"

/-- JavaScript truthiness of a possibly-absent string field. -/
def jsTruthy : Option JStr → Bool
  | none => false
  | some s => !s.isEmpty

/-- The `/v1/remove_file` endpoint (manual field checks, no Joi). -/
def removeFileEndpoint (store : Store) (b : RemoveFileBody) : Store × RfResp :=
  if jsTruthy b.context_id && jsTruthy b.path then
    match b.context_id, b.path with
    | some cid, some p =>
      (match getKey store cid with
       | none => (store, .ctxNotFound)
       | some ctx =>
          match getKey ctx.files p with
          | some _ => (setKey store cid { ctx with files := delKey ctx.files p }, .removed)
          | none => (store, .fileNotFound))
    | _, _ => (store, .missingField)
  else (store, .missingField)

/-- One file in a `/v1/get_context` response. -/
structure GcFile where
  path : JStr
  content : JStr
  added : Nat
  size : Nat
deriving DecidableEq, Repr

/-- Response of `/v1/get_context`. -/
inductive GcResp where
  | missingField
  | ctxNotFound
  | ok (files : List GcFile) (repoInfo : Option (JStr × JStr)) (fileCount : Nat)
deriving DecidableEq, Repr

/-- HTTP status of a `/v1/get_context` response. -/
def GcResp.status : GcResp → Nat
  | .missingField => 400
  | .ctxNotFound => 404
  | .ok _ _ _ => 200

/-- The `/v1/get_context` endpoint. -/
def getContextEndpoint (store : Store) (cid? : Option JStr) : GcResp :=
  if jsTruthy cid? then
    match cid? with
    | some cid =>
      (match getKey store cid with
       | none => .ctxNotFound
       | some ctx =>
          .ok (ctx.files.map fun e =>
                ⟨e.1, decodeContent e.2.content, e.2.added, e.2.size⟩)
             ctx.repoInfo ctx.files.length)
    | none => .missingField
  else .missingField

/-! ### `/v1/search` (part_000): case-insensitive line scan with previews -/

/-- JavaScript `toLowerCase` on one byte (ASCII letters; multi-byte sequences untouched). -/
def toLowerB (c : Nat) : Nat := if 65 ≤ c ∧ c ≤ 90 then c + 32 else c

/-- JavaScript `s.toLowerCase()` in the byte model. -/
def jsLower (s : JStr) : JStr := s.map toLowerB

/-- JavaScript `s.split("\n")` (byte 10); always returns at least one piece. -/
def splitNl : JStr → List JStr
  | [] => [[]]
  | c :: rest =>
      if c = 10 then [] :: splitNl rest
      else
        match splitNl rest with
        | l :: ls => (c :: l) :: ls
        | [] => [[c]]

/-- JavaScript `s.includes(sub)`: substring containment. -/
def jsIncludes (s sub : JStr) : Bool :=
  (List.range (s.length + 1)).any fun i => decide ((s.drop i).take sub.length = sub)

/-- Specification-side predicate: `sub` occurs as a contiguous substring of `s`. -/
def Substr (sub s : JStr) : Prop := ∃ pre post, s = pre ++ sub ++ post

theorem jsIncludes_iff_Substr (s sub : JStr) : jsIncludes s sub = true ↔ Substr sub s := by
  unfold jsIncludes Substr
  rw [List.any_eq_true]
  constructor
  · rintro ⟨i, _, hi⟩
    rw [decide_eq_true_iff] at hi
    refine ⟨s.take i, (s.drop i).drop sub.length, ?_⟩
    conv_lhs => rw [← List.take_append_drop i s]
    conv_lhs => rw [← List.take_append_drop sub.length (s.drop i)]
    rw [hi, List.append_assoc]
  · rintro ⟨pre, post, rfl⟩
    refine ⟨pre.length, ?_, ?_⟩
    · rw [List.mem_range]
      simp
      omega
    · rw [decide_eq_true_iff, List.append_assoc, List.drop_left, List.take_left]

/-- Case-insensitive containment, the property the spec states for search. -/
def ContainsCI (line q : JStr) : Prop := Substr (jsLower q) (jsLower line)

instance (line q : JStr) : Decidable (ContainsCI line q) :=
  decidable_of_iff _ (jsIncludes_iff_Substr (jsLower line) (jsLower q))

/-- One match in a search result: 1-based line number, raw line, preview. -/
structure SearchMatch where
  line : Nat
  content : JStr
  preview : JStr
deriving DecidableEq, Repr

/-- The preview built by the source:
`line.length > 100 ? line.slice(0, 100) + "..." : line`. -/
def previewOf (line : JStr) : JStr :=
  if 100 < line.length then line.take 100 ++ [46, 46, 46] else line

/-- The `lines.forEach((line, i) => ...)` loop: scan lines from 0-based index `i`. -/
def scanLines (q : JStr) (i : Nat) : List JStr → List SearchMatch
  | [] => []
  | line :: rest =>
      if jsIncludes (jsLower line) (jsLower q)
      then ⟨i + 1, line, previewOf line⟩ :: scanLines q (i + 1) rest
      else scanLines q (i + 1) rest

/-- Matches of one file: decode, split into lines, scan. -/
def fileMatches (q content : JStr) : List SearchMatch :=
  scanLines q 0 (splitNl content)

/-- Per-file search result; `matchList` embeds the JSON field `matches`
(`matches` is a reserved word in Lean). -/
structure SearchFileResult where
  path : JStr
  matchList : List SearchMatch
  matchCount : Nat
deriving DecidableEq, Repr

/-- Raw `/v1/search` request body. -/
structure SearchBody where
  context_id : Option JStr
  query : Option JStr
deriving DecidableEq, Repr

/-- Response of `/v1/search`. -/
inductive SearchResp where
  | missingField
  | ctxNotFound
  | ok (results : List SearchFileResult) (totalMatches : Nat) (filesSearched : Nat)
deriving DecidableEq, Repr

/-- HTTP status of a `/v1/search` response. -/
def SearchResp.status : SearchResp → Nat
  | .missingField => 400
  | .ctxNotFound => 404
  | .ok _ _ _ => 200

/-- The `/v1/search` endpoint (part_000). -/
def searchEndpoint (store : Store) (b : SearchBody) : SearchResp :=
  if jsTruthy b.context_id && jsTruthy b.query then
    match b.context_id, b.query with
    | some cid, some q =>
      (match getKey store cid with
       | none => .ctxNotFound
       | some ctx =>
          let results := ctx.files.filterMap fun e =>
            let ms := fileMatches q (decodeContent e.2.content)
            if ms.isEmpty then none else some ⟨e.1, ms, ms.length⟩
          .ok results (results.foldl (fun a r => a + r.matchCount) 0)
             ctx.files.length)
    | _, _ => .missingField
  else .missingField

/-! ## Atomic Commit Builder (part_000: `POST /v1/push_files`, `PUT /commit`)

Each handler is a function of an Octokit oracle, returning its response
and the exact trace of remote calls with the arguments the source passes.
-/

/-- The `OWNER` constant (byte string "MostafaSwaisy"; env override modelled
as this fixed process-wide value). -/
def OWNER : JStr := [77, 111, 115, 116, 97, 102, 97, 83, 119, 97, 105, 115, 121]

/-- The ref string the source builds: the bytes of "heads/" ++ branch. -/
def refOfBranch (branch : JStr) : JStr := [104, 101, 97, 100, 115, 47] ++ branch

/-- The bytes of "100644" (regular-file mode literal). -/
def modeRegular : JStr := [49, 48, 48, 54, 52, 52]

/-- The bytes of "blob". -/
def blobLit : JStr := [98, 108, 111, 98]

/-- The bytes of "base64". -/
def base64Lit : JStr := [98, 97, 115, 101, 54, 52]

/-- A tree entry as built by the source: `{ path, mode, type, sha }`. -/
structure TreeEntry where
  path : JStr
  mode : JStr
  ty : JStr
  sha : JStr
deriving DecidableEq, Repr

/-- The commit data the handlers read back: `.sha`, `.tree.sha`, `.message`. -/
structure GitCommitData where
  sha : JStr
  treeSha : JStr
  message : JStr
deriving DecidableEq, Repr

/-- One remote Octokit call, with the arguments the source supplies. -/
inductive GhCall where
  | reposGet (owner repo : JStr)
  | gitGetRef (owner repo ref : JStr)
  | gitGetCommit (owner repo commitSha : JStr)
  | gitCreateBlob (owner repo content encoding : JStr)
  | gitCreateTree (owner repo baseTree : JStr) (entries : List TreeEntry)
  | gitCreateCommit (owner repo message tree : JStr) (parents : List JStr)
  | gitUpdateRef (owner repo ref sha : JStr)
deriving DecidableEq, Repr

/-- The Octokit oracle: one function per remote call; `none` / `error` is a
thrown exception. `repoGet` errors carry the HTTP status (404 means the
repository does not exist, anything else is rethrown). -/
structure Octo where
  repoGet : JStr → Except Nat Unit
  getRef : JStr → JStr → Option JStr
  getCommit : JStr → JStr → Option GitCommitData
  createBlob : JStr → JStr → Option JStr
  createTree : JStr → JStr → List TreeEntry → Option JStr
  createCommit : JStr → JStr → JStr → List JStr → Option GitCommitData
  updateRef : JStr → JStr → JStr → Option Unit

/-- Sequence a list of optional results (`Promise.all` over blob creations). -/
def seqOpt {α : Type} : List (Option α) → Option (List α)
  | [] => some []
  | none :: _ => none
  | some a :: rest => (seqOpt rest).map (a :: ·)

/-- Validated `/v1/push_files` request (`schemas.pushFiles` output). -/
structure PushReq where
  repoName : JStr
  branch : JStr
  files : List (JStr × JStr)
  message : JStr
deriving DecidableEq, Repr

/-- Response of `/v1/push_files`. -/
inductive PushResp where
  | validationErr
  | repoNotFound
  | upstreamErr
  | pushed (commitSha message : JStr) (files : List (JStr × JStr)) (branch : JStr)
deriving DecidableEq, Repr

/-- HTTP status of a `/v1/push_files` response. -/
def PushResp.status : PushResp → Nat
  | .validationErr => 400
  | .repoNotFound => 404
  | .upstreamErr => 500
  | .pushed _ _ _ _ => 200

/-- The `/v1/push_files` handler after validation: resolve head, fetch base
commit, create blobs, tree, commit, then update the ref. -/
def pushFilesRun (ok : Octo) (req : PushReq) : PushResp × List GhCall :=
  let t0 := [GhCall.reposGet OWNER req.repoName]
  match ok.repoGet req.repoName with
  | .error s => if s = 404 then (.repoNotFound, t0) else (.upstreamErr, t0)
  | .ok _ =>
    let r := refOfBranch req.branch
    let t1 := t0 ++ [GhCall.gitGetRef OWNER req.repoName r]
    match ok.getRef req.repoName r with
    | none => (.upstreamErr, t1)
    | some headSha =>
      let t2 := t1 ++ [GhCall.gitGetCommit OWNER req.repoName headSha]
      match ok.getCommit req.repoName headSha with
      | none => (.upstreamErr, t2)
      | some headCommit =>
        let t3 := t2 ++ req.files.map fun f =>
          GhCall.gitCreateBlob OWNER req.repoName (encodeContent f.2) base64Lit
        match seqOpt (req.files.map fun f =>
            (ok.createBlob req.repoName (encodeContent f.2)).map
              fun bsha => TreeEntry.mk f.1 modeRegular blobLit bsha) with
        | none => (.upstreamErr, t3)
        | some entries =>
          let t4 := t3 ++ [GhCall.gitCreateTree OWNER req.repoName headCommit.treeSha entries]
          match ok.createTree req.repoName headCommit.treeSha entries with
          | none => (.upstreamErr, t4)
          | some newTreeSha =>
            let t5 := t4 ++ [GhCall.gitCreateCommit OWNER req.repoName req.message newTreeSha [headCommit.sha]]
            match ok.createCommit req.repoName req.message newTreeSha [headCommit.sha] with
            | none => (.upstreamErr, t5)
            | some newCommit =>
              let t6 := t5 ++ [GhCall.gitUpdateRef OWNER req.repoName r newCommit.sha]
              match ok.updateRef req.repoName r newCommit.sha with
              | none => (.upstreamErr, t6)
              | some _ =>
                (.pushed newCommit.sha newCommit.message
                  (entries.map fun e => (e.path, e.sha)) req.branch, t6)

/-- Raw `/v1/push_files` request body. -/
structure PushBody where
  repoName : Option JStr
  branch : Option JStr
  files : Option (List (Option JStr × Option JStr))
  message : Option JStr
deriving DecidableEq, Repr

/-- Validate one item of the `files` array: `{ path, content }` both
required non-empty strings. -/
def validateFileItem (it : Option JStr × Option JStr) : Option (JStr × JStr) :=
  match joiReqStr it.1, joiReqStr it.2 with
  | some p, some c => some (p, c)
  | _, _ => none

/-- Validate the `files` array: every item must validate.  Note
`Joi.array().items(...).required()` accepts an empty array. -/
def validateFileList : List (Option JStr × Option JStr) → Option (List (JStr × JStr))
  | [] => some []
  | it :: rest =>
    match validateFileItem it, validateFileList rest with
    | some v, some vs => some (v :: vs)
    | _, _ => none

/-- The `schemas.pushFiles` validation. -/
def validatePushFiles (b : PushBody) : Option PushReq :=
  match joiReqStr b.repoName, joiDefStr mainStr b.branch, b.files, joiReqStr b.message with
  | some rn, some br, some fl, some msg =>
    (match validateFileList fl with
     | some files => some ⟨rn, br, files, msg⟩
     | none => none)
  | _, _, _, _ => none

/-- The `/v1/push_files` endpoint: validation middleware, then the handler.
A validation failure answers 400 before any remote call (empty trace). -/
def pushFilesEndpoint (ok : Octo) (b : PushBody) : PushResp × List GhCall :=
  match validatePushFiles b with
  | none => (.validationErr, [])
  | some req => pushFilesRun ok req

/-- Validated `PUT /commit` request (`schemas.commit` output). -/
structure CommitReq where
  repoName : JStr
  branch : JStr
  path : JStr
  content : JStr
  message : JStr
deriving DecidableEq, Repr

/-- Response of `PUT /commit`. -/
inductive CommitResp where
  | repoNotFound
  | upstreamErr
  | committed (commitSha message : JStr)
deriving DecidableEq, Repr

/-- The `PUT /commit` handler after validation (single-file commit). -/
def commitRun (ok : Octo) (req : CommitReq) : CommitResp × List GhCall :=
  let t0 := [GhCall.reposGet OWNER req.repoName]
  match ok.repoGet req.repoName with
  | .error s => if s = 404 then (.repoNotFound, t0) else (.upstreamErr, t0)
  | .ok _ =>
    let r := refOfBranch req.branch
    let t1 := t0 ++ [GhCall.gitGetRef OWNER req.repoName r]
    match ok.getRef req.repoName r with
    | none => (.upstreamErr, t1)
    | some latestCommitSha =>
      let t2 := t1 ++ [GhCall.gitGetCommit OWNER req.repoName latestCommitSha]
      match ok.getCommit req.repoName latestCommitSha with
      | none => (.upstreamErr, t2)
      | some latestCommit =>
        let t3 := t2 ++ [GhCall.gitCreateBlob OWNER req.repoName (encodeContent req.content) base64Lit]
        match ok.createBlob req.repoName (encodeContent req.content) with
        | none => (.upstreamErr, t3)
        | some blobSha =>
          let entries := [TreeEntry.mk req.path modeRegular blobLit blobSha]
          let t4 := t3 ++ [GhCall.gitCreateTree OWNER req.repoName latestCommit.treeSha entries]
          match ok.createTree req.repoName latestCommit.treeSha entries with
          | none => (.upstreamErr, t4)
          | some newTreeSha =>
            let t5 := t4 ++ [GhCall.gitCreateCommit OWNER req.repoName req.message newTreeSha [latestCommitSha]]
            match ok.createCommit req.repoName req.message newTreeSha [latestCommitSha] with
            | none => (.upstreamErr, t5)
            | some newCommit =>
              let t6 := t5 ++ [GhCall.gitUpdateRef OWNER req.repoName r newCommit.sha]
              match ok.updateRef req.repoName r newCommit.sha with
              | none => (.upstreamErr, t6)
              | some _ => (.committed newCommit.sha newCommit.message, t6)

/-! ## The legacy server (src/server.js)

Same `contextStore` shape but entries keep raw content and no size; its
`/v1/remove_file` silently succeeds on an absent path, its `/v1/search`
is case-sensitive, and it alone has the eviction sweep (`setInterval`).
-/

/-- A file entry in server.js: `{ content, added }` (raw content, no size). -/
structure FileEntryV0 where
  content : JStr
  added : Nat
deriving DecidableEq, Repr

/-- A context in server.js. -/
structure CtxV0 where
  created : Nat
  files : List (JStr × FileEntryV0)
  repoInfo : Option (JStr × JStr)
deriving DecidableEq, Repr

/-- The server.js `contextStore`. -/
abbrev StoreV0 := List (JStr × CtxV0)

/-- Response of server.js `/v1/remove_file` (it has no field validation and
no absent-path error). -/
inductive RfRespV0 where
  | ctxNotFound
  | success
deriving DecidableEq, Repr

/-- server.js `/v1/remove_file`: deletes when present, answers success
either way. -/
def removeFileV0 (store : StoreV0) (cid p : JStr) : StoreV0 × RfRespV0 :=
  match getKey store cid with
  | none => (store, .ctxNotFound)
  | some ctx =>
    match getKey ctx.files p with
    | some _ => (setKey store cid { ctx with files := delKey ctx.files p }, .success)
    | none => (store, .success)

/-- One match in a server.js search result (no preview). -/
structure MatchV0 where
  line : Nat
  content : JStr
deriving DecidableEq, Repr

/-- Per-file result of server.js search (no counts). -/
structure ResultV0 where
  path : JStr
  matchList : List MatchV0
deriving DecidableEq, Repr

/-- Response of server.js `/v1/search`. -/
inductive SearchRespV0 where
  | ctxNotFound
  | ok (results : List ResultV0)
deriving DecidableEq, Repr

/-- server.js `/v1/search`: case-SENSITIVE `content.includes(query)` filter,
raw per-line matches, no preview, no aggregate counts. -/
def searchV0 (store : StoreV0) (cid q : JStr) : SearchRespV0 :=
  match getKey store cid with
  | none => .ctxNotFound
  | some ctx =>
    .ok (ctx.files.filterMap fun e =>
      if jsIncludes e.2.content q then
        some ⟨e.1, ((splitNl e.2.content).enum.map fun it => MatchV0.mk (it.1 + 1) it.2).filter
                 fun it => jsIncludes it.content q⟩
      else none)

/-- server.js `/v1/init` store effect. -/
def initCtxV0 (store : StoreV0) (cid : JStr) (now : Nat) : StoreV0 :=
  setKey store cid ⟨now, [], none⟩

/-- server.js `/v1/add_file` store effect (no-op 404 when the context is
unknown). -/
def addFileV0 (store : StoreV0) (now : Nat) (cid p c : JStr) : StoreV0 :=
  match getKey store cid with
  | none => store
  | some ctx => setKey store cid { ctx with files := setKey ctx.files p ⟨c, now⟩ }

/-- The 24-hour retention window in milliseconds (`24 * 60 * 60 * 1000`). -/
def RETENTION_MS : Nat := 24 * 60 * 60 * 1000

/-- One run of the `setInterval` sweep: delete every context with
`now - created > 24h`. -/
def sweepV0 (store : StoreV0) (now : Nat) : StoreV0 :=
  store.filter fun e => ! decide (RETENTION_MS < now - e.2.created)

/-- Store-affecting events of the legacy server: context creation, the
background sweep, file add/remove. -/
inductive EvV0 where
  | init (cid : JStr) (t : Nat)
  | sweep (t : Nat)
  | addF (cid p c : JStr) (t : Nat)
  | removeF (cid p : JStr)
deriving DecidableEq, Repr

/-- Effect of one event on the store. -/
def stepV0 (s : StoreV0) : EvV0 → StoreV0
  | .init cid t => initCtxV0 s cid t
  | .sweep t => sweepV0 s t
  | .addF cid p c t => addFileV0 s t cid p c
  | .removeF cid p => (removeFileV0 s cid p).1

/-- Run a sequence of events. -/
def runV0 (s : StoreV0) : List EvV0 → StoreV0
  | [] => s
  | e :: rest => runV0 (stepV0 s e) rest

/-! ## Concrete oracles and inputs used by witnesses and counterexamples -/

/-- A fully cooperative Octokit oracle: head sha 72, base tree 84, blob 66,
new tree 78, new commit 90. -/
def okStub : Octo where
  repoGet := fun _ => .ok ()
  getRef := fun _ _ => some [72]
  getCommit := fun _ s => some ⟨s, [84], []⟩
  createBlob := fun _ _ => some [66]
  createTree := fun _ _ _ => some [78]
  createCommit := fun _ m _ _ => some ⟨[90], [78], m⟩
  updateRef := fun _ _ _ => some ()

/-! ## Validation helper lemmas -/

theorem validateAddFile_empty_content (b : AddFileBody) (h : b.content = some []) :
    validateAddFile b = none := by
  have hc : joiReqStr b.content = none := by rw [h]; rfl
  unfold validateAddFile
  split
  · simp_all
  · rfl

theorem validateFileList_bad (fl : List (Option JStr × Option JStr))
    (h : ∃ it ∈ fl, it.2 = some []) : validateFileList fl = none := by
  induction fl with
  | nil => simp at h
  | cons it rest ih =>
    rcases h with ⟨it', hm, hbad⟩
    rcases List.mem_cons.mp hm with rfl | hm'
    · have hitem : validateFileItem it' = none := by
        have hc : joiReqStr it'.2 = none := by rw [hbad]; rfl
        unfold validateFileItem
        split
        · simp_all
        · rfl
      unfold validateFileList
      rw [hitem]
    · have hrest : validateFileList rest = none := ih ⟨it', hm', hbad⟩
      unfold validateFileList
      rw [hrest]
      split
      · simp_all
      · rfl

/-! ## Claim C8 -/

/-- Claim C8 as stated is false: a file with empty content is NOT accepted.
At concrete inputs, `/v1/add_file` with `content = ""` and `/v1/push_files`
with a file item whose content is `""` are both rejected by Joi validation
(`Joi.string().required()` rejects the empty string), leaving state
untouched and contacting nothing. -/
theorem c8_counterexample :
    addFileEndpoint [([99], ⟨0, [], none⟩)] 0
        ⟨some [99], some [112], some [], none, none⟩ =
      ([([99], ⟨0, [], none⟩)], AddFileResp.validationErr) ∧
    AddFileResp.status .validationErr = 400 ∧
    pushFilesEndpoint okStub ⟨some [114], none, some [(some [112], some [])], some [109]⟩ =
      (PushResp.validationErr, []) := by
  refine ⟨?_, rfl, ?_⟩ <;> rfl

/-- Claim C8 amended: supplying a file whose content is the empty string is
rejected by request validation as a Validation failure (HTTP 400), in both
`/v1/add_file` and `/v1/push_files`; no state change and no remote call
happens. -/
theorem c8_empty_content_rejected :
    (∀ (store : Store) (now : Nat) (b : AddFileBody), b.content = some [] →
       addFileEndpoint store now b = (store, .validationErr) ∧
       AddFileResp.status .validationErr = 400) ∧
    (∀ (ok : Octo) (b : PushBody) (fl : List (Option JStr × Option JStr)),
       b.files = some fl → (∃ it ∈ fl, it.2 = some []) →
       pushFilesEndpoint ok b = (.validationErr, []) ∧
       PushResp.status .validationErr = 400) := by
  constructor
  · intro store now b h
    refine ⟨?_, rfl⟩
    unfold addFileEndpoint
    rw [validateAddFile_empty_content b h]
  · intro ok b fl hf h
    refine ⟨?_, rfl⟩
    have hlist := validateFileList_bad fl h
    have hv : validatePushFiles b = none := by
      unfold validatePushFiles
      split
      · rename_i rn br fl' msg heq1 heq2 heq3 heq4
        rw [hf] at heq3
        cases heq3
        rw [hlist]
      · rfl
    unfold pushFilesEndpoint
    rw [hv]

/-- Witness for `c8_empty_content_rejected` at concrete inputs. -/
theorem c8_empty_content_rejected_witness :
    addFileEndpoint [] 5 ⟨some [99], some [112], some [], none, none⟩ =
      ([], .validationErr) ∧
    pushFilesEndpoint okStub ⟨some [114], none, some [(some [112], some [])], some [109]⟩ =
      (.validationErr, []) :=
  ⟨(c8_empty_content_rejected.1 [] 5 ⟨some [99], some [112], some [], none, none⟩ rfl).1,
   (c8_empty_content_rejected.2 okStub
      ⟨some [114], none, some [(some [112], some [])], some [109]⟩
      [(some [112], some [])] rfl ⟨(some [112], some []), by simp⟩).1⟩

/-! ## Claim C2 -/

/-- Claim C2 as stated is false at a concrete input: a `/v1/push_files`
request with `files: []` passes Joi validation
(`Joi.array().items(...).required()` accepts an empty array, there is no
`.min(1)`) and the handler then contacts the object store: the trace shows
the repository lookup, ref and commit reads, and tree / commit / ref writes
for the zero-file request. -/
theorem c2_counterexample :
    validatePushFiles ⟨some [114], none, some [], some [109]⟩ =
      some ⟨[114], mainStr, [], [109]⟩ ∧
    pushFilesEndpoint okStub ⟨some [114], none, some [], some [109]⟩ =
      (.pushed [90] [109] [] mainStr,
       [GhCall.reposGet OWNER [114],
        GhCall.gitGetRef OWNER [114] (refOfBranch mainStr),
        GhCall.gitGetCommit OWNER [114] [72],
        GhCall.gitCreateTree OWNER [114] [84] [],
        GhCall.gitCreateCommit OWNER [114] [109] [78] [[72]],
        GhCall.gitUpdateRef OWNER [114] (refOfBranch mainStr) [90]]) := by
  constructor <;> rfl

/-- Whatever the oracle answers, the first remote call of the push handler
is the repository lookup. -/
theorem pushFilesRun_trace_head (ok : Octo) (req : PushReq) :
    (pushFilesRun ok req).2.head? = some (GhCall.reposGet OWNER req.repoName) := by
  unfold pushFilesRun
  cases hrg : ok.repoGet req.repoName with
  | error s =>
    by_cases hs : s = 404 <;> simp [hrg, hs]
  | ok u =>
    cases href : ok.getRef req.repoName (refOfBranch req.branch) with
    | none => simp [hrg, href]
    | some headSha =>
      cases hgc : ok.getCommit req.repoName headSha with
      | none => simp [hrg, href, hgc]
      | some hcd =>
        cases hsq : seqOpt (req.files.map fun f =>
            (ok.createBlob req.repoName (encodeContent f.2)).map
              fun bsha => TreeEntry.mk f.1 modeRegular blobLit bsha) with
        | none => simp [hrg, href, hgc, hsq]
        | some entries =>
          cases hct : ok.createTree req.repoName hcd.treeSha entries with
          | none => simp [hrg, href, hgc, hsq, hct]
          | some nt =>
            cases hcc : ok.createCommit req.repoName req.message nt [hcd.sha] with
            | none => simp [hrg, href, hgc, hsq, hct, hcc]
            | some nc =>
              cases hur : ok.updateRef req.repoName (refOfBranch req.branch) nc.sha with
              | none => simp [hrg, href, hgc, hsq, hct, hcc, hur]
              | some u2 => simp [hrg, href, hgc, hsq, hct, hcc, hur]

/-- Claim C2 amended: a `/v1/push_files` request whose `files` field is
absent is rejected as a Validation failure (HTTP 400) before any remote
call (empty trace); but a present, empty `files` array passes validation
and the handler proceeds to the object store, its first remote call being
the repository lookup. -/
theorem c2_zero_files_validation :
    (∀ (ok : Octo) (b : PushBody), b.files = none →
       pushFilesEndpoint ok b = (.validationErr, []) ∧
       PushResp.status .validationErr = 400) ∧
    (∀ (ok : Octo) (rn msg : JStr), rn ≠ [] → msg ≠ [] →
       validatePushFiles ⟨some rn, none, some [], some msg⟩ =
         some ⟨rn, mainStr, [], msg⟩ ∧
       (pushFilesEndpoint ok ⟨some rn, none, some [], some msg⟩).2.head? =
         some (GhCall.reposGet OWNER rn)) := by
  constructor
  · intro ok b h
    refine ⟨?_, rfl⟩
    have hv : validatePushFiles b = none := by
      unfold validatePushFiles
      split
      · rename_i rn br fl msg heq1 heq2 heq3 heq4
        rw [h] at heq3
        cases heq3
      · rfl
    unfold pushFilesEndpoint
    rw [hv]
  · intro ok rn msg hrn hmsg
    have hv : validatePushFiles ⟨some rn, none, some [], some msg⟩ =
        some ⟨rn, mainStr, [], msg⟩ := by
      unfold validatePushFiles
      simp [joiReqStr, joiDefStr, hrn, hmsg, validateFileList]
    refine ⟨hv, ?_⟩
    unfold pushFilesEndpoint
    rw [hv]
    exact pushFilesRun_trace_head ok ⟨rn, mainStr, [], msg⟩

/-- Witness for `c2_zero_files_validation` at concrete inputs. -/
theorem c2_zero_files_validation_witness :
    pushFilesEndpoint okStub ⟨some [114], some [98], none, some [109]⟩ =
      (.validationErr, []) ∧
    (pushFilesEndpoint okStub ⟨some [114], none, some [], some [109]⟩).2.head? =
      some (GhCall.reposGet OWNER [114]) :=
  ⟨(c2_zero_files_validation.1 okStub ⟨some [114], some [98], none, some [109]⟩ rfl).1,
   (c2_zero_files_validation.2 okStub [114] [109] (by simp) (by simp)).2⟩

/-! ## Claim C9 -/

/-- Claim C9: in `/v1/remove_file`, `/v1/get_context` and `/v1/search`, the
required-field presence check runs before the context-existence check.  A
request with a falsy `context_id` / `path` / `query` gets the 400
Validation answer regardless of the store (in particular even when the
context id is unknown), and the 404 NotFound answers can only occur when
every required field is present and non-empty. -/
theorem c9_validation_before_notfound :
    (∀ (store : Store) (b : RemoveFileBody),
       jsTruthy b.context_id = false ∨ jsTruthy b.path = false →
       removeFileEndpoint store b = (store, .missingField) ∧
       RfResp.status .missingField = 400) ∧
    (∀ (store : Store) (b : RemoveFileBody),
       (removeFileEndpoint store b).2 = RfResp.ctxNotFound ∨
         (removeFileEndpoint store b).2 = RfResp.fileNotFound →
       jsTruthy b.context_id = true ∧ jsTruthy b.path = true) ∧
    (∀ (store : Store) (cid? : Option JStr), jsTruthy cid? = false →
       getContextEndpoint store cid? = .missingField ∧
       GcResp.status .missingField = 400) ∧
    (∀ (store : Store) (cid? : Option JStr),
       getContextEndpoint store cid? = .ctxNotFound → jsTruthy cid? = true) ∧
    (∀ (store : Store) (b : SearchBody),
       jsTruthy b.context_id = false ∨ jsTruthy b.query = false →
       searchEndpoint store b = .missingField ∧
       SearchResp.status .missingField = 400) ∧
    (∀ (store : Store) (b : SearchBody),
       searchEndpoint store b = .ctxNotFound →
       jsTruthy b.context_id = true ∧ jsTruthy b.query = true) := by
  refine ⟨?_, ?_, ?_, ?_, ?_, ?_⟩
  · intro store b h
    refine ⟨?_, rfl⟩
    unfold removeFileEndpoint
    rcases h with h | h <;> simp [h]
  · intro store b h
    by_cases h1 : jsTruthy b.context_id = true ∧ jsTruthy b.path = true
    · exact h1
    · exfalso
      have : removeFileEndpoint store b = (store, .missingField) := by
        unfold removeFileEndpoint
        rcases Decidable.not_and_iff_or_not.mp h1 with h2 | h2 <;>
          simp [Bool.not_eq_true] at h2 <;> simp [h2]
      rw [this] at h
      simp at h
  · intro store cid? h
    refine ⟨?_, rfl⟩
    unfold getContextEndpoint
    simp [h]
  · intro store cid? h
    by_cases h1 : jsTruthy cid? = true
    · exact h1
    · exfalso
      simp [Bool.not_eq_true] at h1
      unfold getContextEndpoint at h
      simp [h1] at h
  · intro store b h
    refine ⟨?_, rfl⟩
    unfold searchEndpoint
    rcases h with h | h <;> simp [h]
  · intro store b h
    by_cases h1 : jsTruthy b.context_id = true ∧ jsTruthy b.query = true
    · exact h1
    · exfalso
      have hm : searchEndpoint store b = .missingField := by
        unfold searchEndpoint
        rcases Decidable.not_and_iff_or_not.mp h1 with h2 | h2 <;>
          simp [Bool.not_eq_true] at h2 <;> simp [h2]
      rw [hm] at h
      simp at h

/-- Witness for `c9_validation_before_notfound`: a request with a missing
`path` but an unknown context id still gets the 400 Validation answer. -/
theorem c9_validation_before_notfound_witness :
    removeFileEndpoint [] ⟨some [120], none⟩ = ([], .missingField) ∧
    searchEndpoint [] ⟨none, some [113]⟩ = .missingField ∧
    getContextEndpoint [] (some []) = .missingField :=
  ⟨(c9_validation_before_notfound.1 [] ⟨some [120], none⟩ (Or.inr rfl)).1,
   (c9_validation_before_notfound.2.2.2.2.1 [] ⟨none, some [113]⟩ (Or.inl rfl)).1,
   (c9_validation_before_notfound.2.2.1 [] (some []) rfl).1⟩

/-! ## Claim C5 -/

theorem setKey_self_mem {α : Type} (m : List (JStr × α)) (k : JStr) (v : α) :
    (k, v) ∈ setKey m k v := by
  induction m with
  | nil => simp [setKey]
  | cons e rest ih =>
    by_cases h : e.1 = k
    · simp [setKey, h]
    · simp [setKey, h, ih]

theorem countP_zero_of_not_keys {α : Type} (m : List (JStr × α)) (k : JStr)
    (h : k ∉ m.map Prod.fst) : m.countP (fun e => decide (e.1 = k)) = 0 := by
  induction m with
  | nil => simp
  | cons e rest ih =>
    simp only [List.map_cons, List.mem_cons] at h
    push_neg at h
    have h1 : (decide (e.1 = k) : Bool) = false := by
      simp [h.1.symm]
    rw [List.countP_cons, h1, ih h.2]
    simp

theorem countP_setKey_self {α : Type} (m : List (JStr × α)) (k : JStr) (v : α)
    (h : (m.map Prod.fst).Nodup) :
    (setKey m k v).countP (fun e => decide (e.1 = k)) = 1 := by
  induction m with
  | nil => simp [setKey]
  | cons e rest ih =>
    simp only [List.map_cons, List.nodup_cons] at h
    by_cases he : e.1 = k
    · have hz : rest.countP (fun e => decide (e.1 = k)) = 0 :=
        countP_zero_of_not_keys rest k (he ▸ h.1)
      simp [setKey, he, List.countP_cons, hz]
    · simp [setKey, he, List.countP_cons, ih h.2]

/-- Claim C5: adding the same path twice leaves exactly one entry in the
context, whose `get_context` view decodes to the last content and whose
size is the byte length of the last content.  (part_000 `/v1/add_file`
then `/v1/get_context`; Joi requires the contents to be non-empty.) -/
theorem c5_addFile_overwrite (store : Store) (now1 now2 : Nat)
    (cid p v1 v2 : JStr) (ctx : Ctx)
    (hctx : getKey store cid = some ctx)
    (hnodup : (ctx.files.map Prod.fst).Nodup)
    (hcid : cid ≠ []) (hp : p ≠ []) (hv1 : v1 ≠ []) (hv2 : v2 ≠ [])
    (hvb : ValidBytes v2) :
    ∃ files ri fc,
      getContextEndpoint
        (addFileEndpoint
          (addFileEndpoint store now1 ⟨some cid, some p, some v1, none, none⟩).1
          now2 ⟨some cid, some p, some v2, none, none⟩).1 (some cid) =
        .ok files ri fc ∧
      files.countP (fun f => decide (f.path = p)) = 1 ∧
      ∃ f ∈ files, f.path = p ∧ f.content = v2 ∧ f.size = v2.length := by
  have hval1 : validateAddFile ⟨some cid, some p, some v1, none, none⟩ =
      some ⟨cid, p, v1, none, mainStr⟩ := by
    simp [validateAddFile, joiReqStr, joiOptStr, joiDefStr, hcid, hp, hv1]
  have hval2 : validateAddFile ⟨some cid, some p, some v2, none, none⟩ =
      some ⟨cid, p, v2, none, mainStr⟩ := by
    simp [validateAddFile, joiReqStr, joiOptStr, joiDefStr, hcid, hp, hv2]
  have hs1 : (addFileEndpoint store now1 ⟨some cid, some p, some v1, none, none⟩).1 =
      setKey store cid
        { ctx with files := setKey ctx.files p ⟨encodeContent v1, now1, v1.length⟩ } := by
    unfold addFileEndpoint
    rw [hval1]
    simp [addFileHandler, hctx]
  have hgk1 : getKey (setKey store cid
      { ctx with files := setKey ctx.files p ⟨encodeContent v1, now1, v1.length⟩ }) cid =
      some { ctx with files := setKey ctx.files p ⟨encodeContent v1, now1, v1.length⟩ } :=
    getKey_setKey_self _ _ _
  have hs2 : (addFileEndpoint
      (setKey store cid
        { ctx with files := setKey ctx.files p ⟨encodeContent v1, now1, v1.length⟩ })
      now2 ⟨some cid, some p, some v2, none, none⟩).1 =
      setKey (setKey store cid
        { ctx with files := setKey ctx.files p ⟨encodeContent v1, now1, v1.length⟩ }) cid
        { ctx with files := setKey ctx.files p ⟨encodeContent v2, now2, v2.length⟩ } := by
    unfold addFileEndpoint
    rw [hval2]
    simp [addFileHandler, hgk1, setKey_setKey_self]
  rw [hs1, hs2]
  have hgk2 : getKey (setKey (setKey store cid
      { ctx with files := setKey ctx.files p ⟨encodeContent v1, now1, v1.length⟩ }) cid
      { ctx with files := setKey ctx.files p ⟨encodeContent v2, now2, v2.length⟩ }) cid =
      some { ctx with files := setKey ctx.files p ⟨encodeContent v2, now2, v2.length⟩ } :=
    getKey_setKey_self _ _ _
  have htr : jsTruthy (some cid) = true := by
    simp [jsTruthy, hcid]
  unfold getContextEndpoint
  rw [htr]
  simp only [if_true]
  rw [hgk2]
  refine ⟨_, _, _, rfl, ?_, ?_⟩
  · rw [List.countP_map]
    exact countP_setKey_self ctx.files p ⟨encodeContent v2, now2, v2.length⟩ hnodup
  · refine ⟨⟨p, decodeContent (encodeContent v2), now2, v2.length⟩, ?_, rfl, ?_, rfl⟩
    · exact List.mem_map.mpr
        ⟨(p, ⟨encodeContent v2, now2, v2.length⟩),
         setKey_self_mem ctx.files p _, rfl⟩
    · exact decode_encode v2 hvb

/-- Witness for `c5_addFile_overwrite` at concrete inputs. -/
theorem c5_addFile_overwrite_witness :
    ∃ files ri fc,
      getContextEndpoint
        (addFileEndpoint
          (addFileEndpoint [([99], ⟨0, [], none⟩)] 1
            ⟨some [99], some [112], some [97], none, none⟩).1
          2 ⟨some [99], some [112], some [98, 99], none, none⟩).1 (some [99]) =
        .ok files ri fc ∧
      files.countP (fun f => decide (f.path = [112])) = 1 ∧
      ∃ f ∈ files, f.path = [112] ∧ f.content = [98, 99] ∧ f.size = [98, 99].length :=
  c5_addFile_overwrite [([99], ⟨0, [], none⟩)] 1 2 [99] [112] [97] [98, 99]
    ⟨0, [], none⟩ rfl (by simp) (by simp) (by simp) (by simp) (by simp)
    (by decide)

/-! ## Claim C6 -/

/-- A concrete legacy-server store: context "c" holding path "p". -/
def storeC6 : StoreV0 := [([99], ⟨0, [([112], ⟨[120], 0⟩)], none⟩)]

/-- The same store in the part_000 shape, for the amended claim witness. -/
def storeC6w : Store := [([99], ⟨0, [([112], ⟨[119], 0, 1⟩)], none⟩)]

/-- Claim C6 as stated is false for the legacy server.js handler: removing
the same path twice answers success both times — the second removal of the
now-absent path does NOT fail with NotFound. -/
theorem c6_counterexample :
    (removeFileV0 storeC6 [99] [112]).2 = RfRespV0.success ∧
    (removeFileV0 (removeFileV0 storeC6 [99] [112]).1 [99] [112]).2 =
      RfRespV0.success ∧
    RfRespV0.success ≠ RfRespV0.ctxNotFound := by
  refine ⟨rfl, rfl, by decide⟩

/-- Claim C6 amended: in the Joi-validated server (part_000) the claim
holds — after a successful remove the context no longer shows the path, a
second remove answers 404 with the message "File not found in context",
distinct from the unknown-context 404 "Context not found".  The legacy
server.js handler instead answers success for an absent path. -/
theorem c6_remove_notfound (store : Store) (cid p : JStr) (ctx : Ctx)
    (e : FileEntry)
    (hcid : cid ≠ []) (hp : p ≠ [])
    (hctx : getKey store cid = some ctx)
    (he : getKey ctx.files p = some e) :
    (removeFileEndpoint store ⟨some cid, some p⟩).2 = .removed ∧
    (∃ files ri fc,
      getContextEndpoint (removeFileEndpoint store ⟨some cid, some p⟩).1
          (some cid) = .ok files ri fc ∧
      ∀ f ∈ files, f.path ≠ p) ∧
    removeFileEndpoint (removeFileEndpoint store ⟨some cid, some p⟩).1
        ⟨some cid, some p⟩ =
      ((removeFileEndpoint store ⟨some cid, some p⟩).1, .fileNotFound) ∧
    RfResp.status .fileNotFound = 404 ∧
    RfResp.msg .fileNotFound ≠ RfResp.msg .ctxNotFound := by
  have htr : (jsTruthy (some cid) && jsTruthy (some p)) = true := by
    simp [jsTruthy, hcid, hp]
  have hr1 : removeFileEndpoint store ⟨some cid, some p⟩ =
      (setKey store cid { ctx with files := delKey ctx.files p }, .removed) := by
    unfold removeFileEndpoint
    rw [htr]
    simp [hctx, he]
  have hgk1 : getKey (setKey store cid
      { ctx with files := delKey ctx.files p }) cid =
      some { ctx with files := delKey ctx.files p } :=
    getKey_setKey_self _ _ _
  refine ⟨by rw [hr1], ?_, ?_, rfl, by decide⟩
  · rw [hr1]
    have htrc : jsTruthy (some cid) = true := by simp [jsTruthy, hcid]
    unfold getContextEndpoint
    rw [htrc]
    simp only [if_true]
    rw [hgk1]
    refine ⟨_, _, _, rfl, ?_⟩
    intro f hf
    rcases List.mem_map.mp hf with ⟨e', he', rfl⟩
    have := List.mem_filter.mp he'
    simpa using this.2
  · rw [hr1]
    unfold removeFileEndpoint
    rw [htr]
    simp [hgk1, getKey_delKey_self]

/-- Witness for `c6_remove_notfound` at a concrete store. -/
theorem c6_remove_notfound_witness :
    removeFileEndpoint (removeFileEndpoint storeC6w ⟨some [99], some [112]⟩).1
        ⟨some [99], some [112]⟩ =
      ((removeFileEndpoint storeC6w ⟨some [99], some [112]⟩).1, .fileNotFound) :=
  (c6_remove_notfound storeC6w [99] [112] ⟨0, [([112], ⟨[119], 0, 1⟩)], none⟩
    ⟨[119], 0, 1⟩ (by simp) (by simp) rfl rfl).2.2.1

/-! ## Claim C10 -/

theorem foldl_add_matchCount (l : List SearchFileResult) (a : Nat) :
    l.foldl (fun acc r => acc + r.matchCount) a =
      a + (l.map SearchFileResult.matchCount).sum := by
  induction l generalizing a with
  | nil => simp
  | cons r rest ih =>
    simp only [List.foldl_cons, List.map_cons, List.sum_cons]
    rw [ih]
    omega

/-- Claim C10: every file listed in a search response has at least one
match and its `match_count` equals the length of its match list; the
`total_matches` field of the response is the sum of the per-file counts; and
`files_searched` is the total number of files in the context, matched or
not. -/
theorem c10_search_response_invariants (store : Store) (b : SearchBody)
    (results : List SearchFileResult) (tm fs : Nat)
    (h : searchEndpoint store b = .ok results tm fs) :
    (∀ r ∈ results, 1 ≤ r.matchCount ∧ r.matchCount = r.matchList.length) ∧
    tm = (results.map SearchFileResult.matchCount).sum ∧
    ∃ cid q ctx, b.context_id = some cid ∧ b.query = some q ∧
      getKey store cid = some ctx ∧ fs = ctx.files.length := by
  obtain ⟨cid?, q?⟩ := b
  cases cid? with
  | none => simp [searchEndpoint, jsTruthy] at h
  | some cid =>
    cases q? with
    | none => simp [searchEndpoint, jsTruthy] at h
    | some q =>
      by_cases hcid : cid = []
      · simp [searchEndpoint, jsTruthy, hcid] at h
      by_cases hq : q = []
      · simp [searchEndpoint, jsTruthy, hcid, hq] at h
      cases hget : getKey store cid with
      | none => simp [searchEndpoint, jsTruthy, hcid, hq, hget] at h
      | some ctx =>
        simp only [searchEndpoint, jsTruthy, hget] at h
        rw [if_pos] at h
        · rw [SearchResp.ok.injEq] at h
          obtain ⟨hres, htm, hfs⟩ := h
          refine ⟨?_, ?_, cid, q, ctx, rfl, rfl, hget, hfs.symm⟩
          · intro r hr
            rw [← hres] at hr
            rcases List.mem_filterMap.mp hr with ⟨e, hmem, hF⟩
            by_cases hemp :
                (fileMatches q (decodeContent e.2.content)).isEmpty = true
            · rw [if_pos hemp] at hF
              simp at hF
            · rw [if_neg hemp] at hF
              rcases Option.some.injEq _ _ ▸ hF with rfl
              have hlen : fileMatches q (decodeContent e.2.content) ≠ [] := by
                intro hnil
                rw [hnil] at hemp
                simp at hemp
              constructor
              · have := List.length_pos.mpr hlen
                simpa using this
              · rfl
          · rw [← htm, ← hres]
            have := foldl_add_matchCount
              (ctx.files.filterMap fun e =>
                let ms := fileMatches q (decodeContent e.2.content)
                if ms.isEmpty then none else some ⟨e.1, ms, ms.length⟩) 0
            simpa using this
        · simp [hcid, hq]

/-- A concrete store for the C10 witness: context "c" with two files,
"p" holding "ab" (matches query "a") and "q" holding "x" (no match). -/
def storeC10 : Store :=
  [([99], ⟨0, [([112], ⟨encodeContent [97, 98], 0, 2⟩),
               ([113], ⟨encodeContent [120], 0, 1⟩)], none⟩)]

/-- Witness for `c10_search_response_invariants` at `storeC10`: one file
matches once, one does not; both are counted as searched. -/
theorem c10_search_response_invariants_witness :
    (∀ r ∈ [SearchFileResult.mk [112] [⟨1, [97, 98], [97, 98]⟩] 1],
       1 ≤ r.matchCount ∧ r.matchCount = r.matchList.length) ∧
    (1 : Nat) = ([SearchFileResult.mk [112] [⟨1, [97, 98], [97, 98]⟩] 1].map
       SearchFileResult.matchCount).sum ∧
    ∃ cid q ctx, some [99] = some cid ∧ some [97] = some q ∧
      getKey storeC10 cid = some ctx ∧ 2 = ctx.files.length :=
  c10_search_response_invariants storeC10 ⟨some [99], some [97]⟩
    [SearchFileResult.mk [112] [⟨1, [97, 98], [97, 98]⟩] 1] 1 2 (by decide)


theorem getKey_eq_none_of_not_keys {α : Type} (m : List (JStr × α)) (k : JStr)
    (h : k ∉ m.map Prod.fst) : getKey m k = none := by
  induction m with
  | nil => rfl
  | cons e rest ih =>
    simp only [List.map_cons, List.mem_cons] at h
    push_neg at h
    simp [getKey, Ne.symm h.1, ih h.2]

theorem getKey_none_filter {α : Type} (m : List (JStr × α)) (k : JStr)
    (p : JStr × α → Bool) (h : getKey m k = none) :
    getKey (m.filter p) k = none := by
  induction m with
  | nil => simp [h]
  | cons e rest ih =>
    by_cases he : e.1 = k
    · simp [getKey, he] at h
    · have h' : getKey rest k = none := by simpa [getKey, he] using h
      cases hp : p e <;> simp [List.filter_cons, hp, getKey, he, ih h']

theorem getKey_sweep_keep (s : StoreV0) (t : Nat) (cid : JStr) (ctx : CtxV0)
    (h : getKey s cid = some ctx) (hk : ¬ RETENTION_MS < t - ctx.created) :
    getKey (sweepV0 s t) cid = some ctx := by
  induction s with
  | nil => simp [getKey] at h
  | cons e rest ih =>
    by_cases he : e.1 = cid
    · have he2 : e.2 = ctx := by simpa [getKey, he] using h
      have hp : decide (RETENTION_MS < t - e.2.created) = false := by
        rw [he2]
        exact decide_eq_false hk
      simp only [sweepV0, List.filter_cons, hp, Bool.not_false, if_true]
      simp [getKey, he, he2]
    · have h' : getKey rest cid = some ctx := by simpa [getKey, he] using h
      have hrec := ih h'
      cases hp : decide (RETENTION_MS < t - e.2.created) <;>
        simpa [sweepV0, List.filter_cons, hp, getKey, he] using hrec

theorem getKey_sweep_del (s : StoreV0) (t : Nat) (cid : JStr) (ctx : CtxV0)
    (hnd : (s.map Prod.fst).Nodup)
    (h : getKey s cid = some ctx) (hd : RETENTION_MS < t - ctx.created) :
    getKey (sweepV0 s t) cid = none := by
  induction s with
  | nil => simp [getKey] at h
  | cons e rest ih =>
    simp only [List.map_cons, List.nodup_cons] at hnd
    by_cases he : e.1 = cid
    · have he2 : e.2 = ctx := by simpa [getKey, he] using h
      have hp : decide (RETENTION_MS < t - e.2.created) = true := by
        rw [he2]
        exact decide_eq_true hd
      have hrest : getKey rest cid = none :=
        getKey_eq_none_of_not_keys rest cid (he ▸ hnd.1)
      simp only [sweepV0, List.filter_cons, hp, Bool.not_true, if_false]
      exact getKey_none_filter rest cid _ hrest
    · have h' : getKey rest cid = some ctx := by simpa [getKey, he] using h
      have hrec := ih hnd.2 h'
      cases hp : decide (RETENTION_MS < t - e.2.created) <;>
        simpa [sweepV0, List.filter_cons, hp, getKey, he] using hrec

theorem stepV0_none (s : StoreV0) (ev : EvV0) (cid : JStr)
    (h : getKey s cid = none) (hev : ∀ t, ev ≠ .init cid t) :
    getKey (stepV0 s ev) cid = none := by
  cases ev with
  | init cid' t =>
    have hne : cid' ≠ cid := fun heq => hev t (by rw [heq])
    exact (getKey_setKey_ne s cid' cid _ hne).trans h
  | sweep t => exact getKey_none_filter s cid _ h
  | addF cid' p c t =>
    simp only [stepV0, addFileV0]
    cases hg : getKey s cid' with
    | none => exact h
    | some ctx =>
      have hne : cid' ≠ cid := fun heq => by rw [heq, h] at hg; cases hg
      exact (getKey_setKey_ne s cid' cid _ hne).trans h
  | removeF cid' p =>
    simp only [stepV0, removeFileV0]
    cases hg : getKey s cid' with
    | none => exact h
    | some ctx =>
      simp only []
      have hne : cid' ≠ cid := fun heq => by rw [heq, h] at hg; cases hg
      cases hgf : getKey ctx.files p with
      | none => exact h
      | some e => exact (getKey_setKey_ne s cid' cid _ hne).trans h

theorem runV0_none (evs : List EvV0) (s : StoreV0) (cid : JStr)
    (h : getKey s cid = none) (hev : ∀ t, EvV0.init cid t ∉ evs) :
    getKey (runV0 s evs) cid = none := by
  induction evs generalizing s with
  | nil => exact h
  | cons ev rest ih =>
    have h1 : getKey (stepV0 s ev) cid = none :=
      stepV0_none s ev cid h (fun t ht => hev t (by rw [ht]; simp))
    exact ih (stepV0 s ev) h1 (fun t ht => hev t (by simp [ht]))

theorem stepV0_keep (s : StoreV0) (ev : EvV0) (cid : JStr) (ctx : CtxV0)
    (h : getKey s cid = some ctx)
    (hev : ∀ t, ev ≠ .init cid t)
    (hsw : ∀ t, ev = .sweep t → t < ctx.created + RETENTION_MS) :
    ∃ ctx', getKey (stepV0 s ev) cid = some ctx' ∧
      ctx'.created = ctx.created := by
  cases ev with
  | init cid' t =>
    have hne : cid' ≠ cid := fun heq => hev t (by rw [heq])
    exact ⟨ctx, (getKey_setKey_ne s cid' cid _ hne).trans h, rfl⟩
  | sweep t =>
    have ht := hsw t rfl
    exact ⟨ctx, getKey_sweep_keep s t cid ctx h (by omega), rfl⟩
  | addF cid' p c t =>
    simp only [stepV0, addFileV0]
    by_cases hne : cid' = cid
    · subst hne
      rw [h]
      exact ⟨_, getKey_setKey_self _ _ _, rfl⟩
    · cases hg : getKey s cid' with
      | none => exact ⟨ctx, h, rfl⟩
      | some ctx2 =>
        exact ⟨ctx, (getKey_setKey_ne s cid' cid _ hne).trans h, rfl⟩
  | removeF cid' p =>
    simp only [stepV0, removeFileV0]
    by_cases hne : cid' = cid
    · subst hne
      rw [h]
      simp only []
      cases hgf : getKey ctx.files p with
      | none => exact ⟨ctx, h, rfl⟩
      | some e => exact ⟨_, getKey_setKey_self _ _ _, rfl⟩
    · cases hg : getKey s cid' with
      | none => exact ⟨ctx, h, rfl⟩
      | some ctx2 =>
        simp only []
        cases hgf : getKey ctx2.files p with
        | none => exact ⟨ctx, h, rfl⟩
        | some e =>
          exact ⟨ctx, (getKey_setKey_ne s cid' cid _ hne).trans h, rfl⟩

theorem runV0_keep (evs : List EvV0) (s : StoreV0) (cid : JStr) (ctx : CtxV0)
    (h : getKey s cid = some ctx)
    (hin : ∀ t, EvV0.init cid t ∉ evs)
    (hsw : ∀ t, EvV0.sweep t ∈ evs → t < ctx.created + RETENTION_MS) :
    ∃ ctx', getKey (runV0 s evs) cid = some ctx' ∧
      ctx'.created = ctx.created := by
  induction evs generalizing s ctx with
  | nil => exact ⟨ctx, h, rfl⟩
  | cons ev rest ih =>
    obtain ⟨ctx1, h1, hcr⟩ := stepV0_keep s ev cid ctx h
      (fun t ht => hin t (by rw [ht]; simp))
      (fun t ht => hsw t (by simp [ht]))
    obtain ⟨ctx', h', hcr'⟩ := ih (stepV0 s ev) ctx1 h1
      (fun t ht => hin t (by simp [ht]))
      (fun t ht => by rw [hcr]; exact hsw t (by simp [ht]))
    exact ⟨ctx', h', by rw [hcr', hcr]⟩

/-- Claim C7: the sweep deletes every context older than the 24-hour
retention window, and only those.  Once a sweep has run at a time strictly
past `createdAt + 24h`, the context is absent from the store at every
later point (no later event resurrects it, ids being fresh); and at any
point where every sweep so far ran strictly before `createdAt + 24h`, the
context is still present with its creation time intact. -/
theorem c7_eviction :
    (∀ (s : StoreV0) (cid : JStr) (ctx : CtxV0) (sweepT : Nat) (evs : List EvV0),
       (s.map Prod.fst).Nodup →
       getKey s cid = some ctx →
       ctx.created + RETENTION_MS < sweepT →
       (∀ t, EvV0.init cid t ∉ evs) →
       getKey (runV0 (sweepV0 s sweepT) evs) cid = none) ∧
    (∀ (s : StoreV0) (cid : JStr) (ctx : CtxV0) (evs : List EvV0),
       getKey s cid = some ctx →
       (∀ t, EvV0.init cid t ∉ evs) →
       (∀ t, EvV0.sweep t ∈ evs → t < ctx.created + RETENTION_MS) →
       ∃ ctx', getKey (runV0 s evs) cid = some ctx' ∧
         ctx'.created = ctx.created) := by
  constructor
  · intro s cid ctx sweepT evs hnd h hlate hin
    have hdel : getKey (sweepV0 s sweepT) cid = none :=
      getKey_sweep_del s sweepT cid ctx hnd h (by omega)
    exact runV0_none evs _ cid hdel hin
  · intro s cid ctx evs h hin hsw
    exact runV0_keep evs s cid ctx h hin hsw

/-- Witness for `c7_eviction`: a context created at time 0 is gone after a
sweep at `24h + 1ms` even with a later add, and survives a sweep at 5ms. -/
theorem c7_eviction_witness :
    getKey (runV0 (sweepV0 [([99], ⟨0, [], none⟩)] (RETENTION_MS + 1))
      [EvV0.addF [99] [112] [120] (RETENTION_MS + 2)]) [99] = none ∧
    ∃ ctx', getKey (runV0 [([99], ⟨0, [], none⟩)] [EvV0.sweep 5]) [99] =
      some ctx' ∧ ctx'.created = 0 :=
  ⟨c7_eviction.1 [([99], ⟨0, [], none⟩)] [99] ⟨0, [], none⟩ (RETENTION_MS + 1)
     [EvV0.addF [99] [112] [120] (RETENTION_MS + 2)]
     (by simp) rfl (by simp) (by intro t; simp),
   c7_eviction.2 [([99], ⟨0, [], none⟩)] [99] ⟨0, [], none⟩ [EvV0.sweep 5]
     rfl (by intro t; simp)
     (by intro t ht; simp at ht; simp [ht, RETENTION_MS])⟩

/-! ## Claim C4 -/

theorem getKey_eq_of_mem_nodup {α : Type} (m : List (JStr × α)) (k : JStr) (v : α)
    (hnd : (m.map Prod.fst).Nodup) (h : (k, v) ∈ m) : getKey m k = some v := by
  induction m with
  | nil => simp at h
  | cons e rest ih =>
    simp only [List.map_cons, List.nodup_cons] at hnd
    rcases List.mem_cons.mp h with h' | h'
    · subst h'
      simp [getKey]
    · have hk : k ∈ rest.map Prod.fst := List.mem_map.mpr ⟨(k, v), h', rfl⟩
      have hne : e.1 ≠ k := fun heq => hnd.1 (heq ▸ hk)
      simp [getKey, hne, ih hnd.2 h']

theorem previewOf_length (l : JStr) : (previewOf l).length ≤ 103 := by
  unfold previewOf
  split
  · simp
  · omega

theorem containsCI_iff (line q : JStr) :
    ContainsCI line q ↔ jsIncludes (jsLower line) (jsLower q) = true :=
  (jsIncludes_iff_Substr _ _).symm

theorem scanLines_mem (q : JStr) (lines : List JStr) (off : Nat) (m : SearchMatch) :
    m ∈ scanLines q off lines ↔
      ∃ j, ∃ hj : j < lines.length,
        jsIncludes (jsLower (lines.get ⟨j, hj⟩)) (jsLower q) = true ∧
        m = ⟨off + j + 1, lines.get ⟨j, hj⟩, previewOf (lines.get ⟨j, hj⟩)⟩ := by
  induction lines generalizing off with
  | nil => simp [scanLines]
  | cons line rest ih =>
    constructor
    · intro hm
      rw [scanLines] at hm
      by_cases hq : jsIncludes (jsLower line) (jsLower q) = true
      · rw [if_pos hq] at hm
        rcases List.mem_cons.mp hm with rfl | hm'
        · exact ⟨0, Nat.succ_pos _, by simpa using hq, by simp⟩
        · obtain ⟨j, hj, hinc, hm2⟩ := (ih (off + 1)).mp hm'
          refine ⟨j + 1, Nat.succ_lt_succ hj, by simpa using hinc, ?_⟩
          rw [hm2]
          simp only [SearchMatch.mk.injEq]
          refine ⟨by omega, by simp, by simp⟩
      · rw [if_neg hq] at hm
        obtain ⟨j, hj, hinc, hm2⟩ := (ih (off + 1)).mp hm
        refine ⟨j + 1, Nat.succ_lt_succ hj, by simpa using hinc, ?_⟩
        rw [hm2]
        simp only [SearchMatch.mk.injEq]
        refine ⟨by omega, by simp, by simp⟩
    · rintro ⟨j, hj, hinc, rfl⟩
      rw [scanLines]
      cases j with
      | zero =>
        have hq : jsIncludes (jsLower line) (jsLower q) = true := by
          simpa using hinc
        rw [if_pos hq]
        simp
      | succ j' =>
        have hj' : j' < rest.length := Nat.lt_of_succ_lt_succ hj
        have heq : (⟨off + (j' + 1) + 1, (line :: rest).get ⟨j' + 1, hj⟩,
            previewOf ((line :: rest).get ⟨j' + 1, hj⟩)⟩ : SearchMatch) =
            ⟨(off + 1) + j' + 1, rest.get ⟨j', hj'⟩,
             previewOf (rest.get ⟨j', hj'⟩)⟩ := by
          simp only [SearchMatch.mk.injEq]
          refine ⟨by omega, by simp, by simp⟩
        have hmem : (⟨off + (j' + 1) + 1, (line :: rest).get ⟨j' + 1, hj⟩,
            previewOf ((line :: rest).get ⟨j' + 1, hj⟩)⟩ : SearchMatch) ∈
            scanLines q (off + 1) rest :=
          (ih (off + 1)).mpr ⟨j', hj', by simpa using hinc, heq⟩
        by_cases hq : jsIncludes (jsLower line) (jsLower q) = true
        · rw [if_pos hq]
          exact List.mem_cons_of_mem _ hmem
        · rw [if_neg hq]
          exact hmem

theorem scanLines_eq_nil (q : JStr) (lines : List JStr) (off : Nat)
    (h : ∀ line ∈ lines, jsIncludes (jsLower line) (jsLower q) = false) :
    scanLines q off lines = [] := by
  induction lines generalizing off with
  | nil => rfl
  | cons line rest ih =>
    rw [scanLines, if_neg (by simp [h line (by simp)]),
      ih (off + 1) (fun l hl => h l (by simp [hl]))]

theorem searchEndpoint_ok_elim (store : Store) (b : SearchBody)
    (results : List SearchFileResult) (tm fs : Nat)
    (h : searchEndpoint store b = .ok results tm fs) :
    ∃ cid q ctx, b.context_id = some cid ∧ b.query = some q ∧
      getKey store cid = some ctx ∧
      results = ctx.files.filterMap (fun e =>
        let ms := fileMatches q (decodeContent e.2.content)
        if ms.isEmpty then none else some ⟨e.1, ms, ms.length⟩) ∧
      fs = ctx.files.length := by
  obtain ⟨cid?, q?⟩ := b
  cases cid? with
  | none => simp [searchEndpoint, jsTruthy] at h
  | some cid =>
    cases q? with
    | none => simp [searchEndpoint, jsTruthy] at h
    | some q =>
      by_cases hcid : cid = []
      · simp [searchEndpoint, jsTruthy, hcid] at h
      by_cases hq : q = []
      · simp [searchEndpoint, jsTruthy, hcid, hq] at h
      cases hget : getKey store cid with
      | none => simp [searchEndpoint, jsTruthy, hcid, hq, hget] at h
      | some ctx =>
        simp only [searchEndpoint, jsTruthy, hget] at h
        rw [if_pos (by simp [hcid, hq])] at h
        rw [SearchResp.ok.injEq] at h
        obtain ⟨hres, htm, hfs⟩ := h
        exact ⟨cid, q, ctx, rfl, rfl, hget, hres.symm, hfs.symm⟩

/-- A concrete legacy-server store for the C4 counterexample: context "c"
with one file "f" whose content is the single line "A". -/
def storeC4 : StoreV0 := [([99], ⟨0, [([102], ⟨[65], 0⟩)], none⟩)]

/-- Claim C4 as stated is false for the legacy server.js `/v1/search`: the
only line of the only file ("A") contains the query ("a") as a
case-insensitive substring, yet the search — whose filter is the
case-sensitive `content.includes(query)` — returns no match entry at all. -/
theorem c4_counterexample :
    ContainsCI [65] [97] ∧
    (∀ line ∈ splitNl [65], ContainsCI line [97]) ∧
    searchV0 storeC4 [99] [97] = .ok [] := by
  refine ⟨by decide, by decide, rfl⟩

/-- Claim C4 amended: the property holds for the Joi-validated server
(part_000): for every file of the context, a successful search response
carries a match entry for exactly the lines containing the query as a
case-insensitive substring, each match holding the 1-based line number,
the raw line text and the length-bounded preview; files with no matching
line get no entry; and as a pure function of the store the search gives
identical responses on repeated calls.  The legacy server.js search is
case-sensitive instead. -/
theorem c4_search_correct (store : Store) (cid q : JStr) (ctx : Ctx)
    (results : List SearchFileResult) (tm fs : Nat)
    (h : searchEndpoint store ⟨some cid, some q⟩ = .ok results tm fs)
    (hctx : getKey store cid = some ctx)
    (hnodup : (ctx.files.map Prod.fst).Nodup)
    (p : JStr) (e : FileEntry) (hmem : (p, e) ∈ ctx.files) :
    (∀ j (hj : j < (splitNl (decodeContent e.content)).length),
       (ContainsCI ((splitNl (decodeContent e.content)).get ⟨j, hj⟩) q ↔
         ∃ r ∈ results, r.path = p ∧ ∃ m ∈ r.matchList, m.line = j + 1)) ∧
    (∀ r ∈ results, r.path = p → ∀ m ∈ r.matchList,
       1 ≤ m.line ∧
       ∃ hj : m.line - 1 < (splitNl (decodeContent e.content)).length,
         m.content = (splitNl (decodeContent e.content)).get ⟨m.line - 1, hj⟩ ∧
         m.preview = previewOf m.content ∧ m.preview.length ≤ 103 ∧
         ContainsCI m.content q) ∧
    ((∀ line ∈ splitNl (decodeContent e.content), ¬ ContainsCI line q) →
       ∀ r ∈ results, r.path ≠ p) ∧
    searchEndpoint store ⟨some cid, some q⟩ =
      searchEndpoint store ⟨some cid, some q⟩ := by
  obtain ⟨cid', q', ctx', hcid', hq', hget', hres, hfs⟩ :=
    searchEndpoint_ok_elim store ⟨some cid, some q⟩ results tm fs h
  injection hcid' with hcid2
  subst hcid2
  injection hq' with hq2
  subst hq2
  rw [hctx] at hget'
  injection hget' with hctx2
  subst hctx2
  have hkey : ∀ r ∈ results, r.path = p →
      r = ⟨p, fileMatches q (decodeContent e.content),
           (fileMatches q (decodeContent e.content)).length⟩ ∧
      (fileMatches q (decodeContent e.content)).isEmpty = false := by
    intro r hr hrp
    rw [hres] at hr
    rcases List.mem_filterMap.mp hr with ⟨e2, hmem2, hF2⟩
    simp only [] at hF2
    by_cases hemp : (fileMatches q (decodeContent e2.2.content)).isEmpty = true
    · rw [if_pos hemp] at hF2
      cases hF2
    · rw [if_neg hemp] at hF2
      have hr2 := (Option.some.inj hF2).symm
      have hp2 : e2.1 = p := by rw [hr2] at hrp; exact hrp
      have hge : getKey ctx.files p = some e :=
        getKey_eq_of_mem_nodup ctx.files p e hnodup hmem
      have hge2 : getKey ctx.files p = some e2.2 := by
        rw [← hp2]
        exact getKey_eq_of_mem_nodup ctx.files e2.1 e2.2 hnodup
          (by rcases e2 with ⟨a, b⟩; exact hmem2)
      rw [hge] at hge2
      injection hge2 with he2
      rw [← he2] at hr2 hemp
      rw [hp2] at hr2
      exact ⟨hr2, by simpa using hemp⟩
  refine ⟨?_, ?_, ?_, rfl⟩
  · intro j hj
    constructor
    · intro hci
      have hinc : jsIncludes (jsLower ((splitNl (decodeContent e.content)).get
          ⟨j, hj⟩)) (jsLower q) = true := (containsCI_iff _ _).mp hci
      have hmj : (⟨0 + j + 1, (splitNl (decodeContent e.content)).get ⟨j, hj⟩,
          previewOf ((splitNl (decodeContent e.content)).get ⟨j, hj⟩)⟩ :
            SearchMatch) ∈ fileMatches q (decodeContent e.content) :=
        (scanLines_mem q (splitNl (decodeContent e.content)) 0 _).mpr
          ⟨j, hj, hinc, rfl⟩
      have hne := List.ne_nil_of_mem hmj
      have hemp : (fileMatches q (decodeContent e.content)).isEmpty = false := by
        cases hms : fileMatches q (decodeContent e.content) with
        | nil => exact absurd hms hne
        | cons x xs => rfl
      refine ⟨⟨p, fileMatches q (decodeContent e.content),
        (fileMatches q (decodeContent e.content)).length⟩, ?_, rfl, ?_⟩
      · rw [hres]
        refine List.mem_filterMap.mpr ⟨(p, e), hmem, ?_⟩
        simp only []
        rw [if_neg (by rw [hemp]; simp)]
      · refine ⟨_, hmj, ?_⟩
        simp
    · rintro ⟨r, hr, hrp, m, hm, hml⟩
      obtain ⟨hreq, hemp⟩ := hkey r hr hrp
      rw [hreq] at hm
      simp only [] at hm
      obtain ⟨j0, hj0, hinc0, hmf⟩ :=
        (scanLines_mem q (splitNl (decodeContent e.content)) 0 m).mp hm
      have hj0j : j0 = j := by
        rw [hmf] at hml
        simp only [] at hml
        omega
      subst hj0j
      exact (containsCI_iff _ _).mpr hinc0
  · intro r hr hrp m hm
    obtain ⟨hreq, hemp⟩ := hkey r hr hrp
    rw [hreq] at hm
    simp only [] at hm
    obtain ⟨j0, hj0, hinc0, hmf⟩ :=
      (scanLines_mem q (splitNl (decodeContent e.content)) 0 m).mp hm
    subst hmf
    have hj0' : 0 + j0 + 1 - 1 < (splitNl (decodeContent e.content)).length := by
      simpa using hj0
    have hidx : (⟨0 + j0 + 1 - 1, hj0'⟩ :
        Fin (splitNl (decodeContent e.content)).length) = ⟨j0, hj0⟩ :=
      Fin.ext (show 0 + j0 + 1 - 1 = j0 by omega)
    refine ⟨show 1 ≤ 0 + j0 + 1 by omega, hj0', ?_, ?_, previewOf_length _, ?_⟩
    · show (splitNl (decodeContent e.content)).get ⟨j0, hj0⟩ =
        (splitNl (decodeContent e.content)).get ⟨0 + j0 + 1 - 1, hj0'⟩
      rw [hidx]
    · rfl
    · exact (containsCI_iff _ _).mpr hinc0
  · intro hall r hr hrp
    obtain ⟨hreq, hemp⟩ := hkey r hr hrp
    have hnil : fileMatches q (decodeContent e.content) = [] := by
      apply scanLines_eq_nil
      intro line hl
      rw [← Bool.not_eq_true]
      intro hI
      exact hall line hl ((containsCI_iff _ _).mpr hI)
    rw [hnil] at hemp
    simp at hemp

/-- Witness for `c4_search_correct` at `storeC10`: the first line of file
"p" ("ab") contains the query "a", so the response carries a match entry
with line number 1 for it. -/
theorem c4_search_correct_witness :
    ∃ r ∈ [SearchFileResult.mk [112] [⟨1, [97, 98], [97, 98]⟩] 1],
      r.path = [112] ∧ ∃ m ∈ r.matchList, m.line = 0 + 1 :=
  ((c4_search_correct storeC10 [99] [97]
      ⟨0, [([112], ⟨encodeContent [97, 98], 0, 2⟩),
           ([113], ⟨encodeContent [120], 0, 1⟩)], none⟩
      [SearchFileResult.mk [112] [⟨1, [97, 98], [97, 98]⟩] 1] 1 2
      (by decide) rfl (by decide) [112] ⟨encodeContent [97, 98], 0, 2⟩
      (by decide)).1 0 (by decide)).mp (by decide)

/-! ## Claims C1 and C3: ref-update analysis of the commit builder -/

/-- The string arguments a trace entry supplies to `git.updateRef`
(and `none` for every other call). -/
def updateRefArgsOf : GhCall → Option (List JStr)
  | .gitUpdateRef o r f s => some [o, r, f, s]
  | _ => none

theorem filterMap_updateRefArgs_blobs (rn : JStr) (files : List (JStr × JStr)) :
    ((files.map fun f =>
        GhCall.gitCreateBlob OWNER rn (encodeContent f.2) base64Lit).filterMap
      updateRefArgsOf) = [] := by
  induction files with
  | nil => rfl
  | cons f rest ih => simp [updateRefArgsOf, ih]

/-- Every `updateRef` call issued by the `/v1/push_files` handler happens
only after steps 1 through 5 all succeeded, targets `heads/<branch>` of the
request under `OWNER`, and supplies exactly one sha: the sha of the commit
created in step 5, whose single parent is the sha field of the head commit
fetched in step 2 at the head resolved in step 1. -/
theorem pushFilesRun_updateRef_analysis (ok : Octo) (req : PushReq)
    (resp : PushResp) (trace : List GhCall) (o r f s : JStr)
    (h : pushFilesRun ok req = (resp, trace))
    (hm : GhCall.gitUpdateRef o r f s ∈ trace) :
    o = OWNER ∧ r = req.repoName ∧ f = refOfBranch req.branch ∧
    ok.repoGet req.repoName = .ok () ∧
    ∃ headSha headCommit entries newTreeSha newCommit,
      ok.getRef req.repoName (refOfBranch req.branch) = some headSha ∧
      ok.getCommit req.repoName headSha = some headCommit ∧
      seqOpt (req.files.map fun fl =>
        (ok.createBlob req.repoName (encodeContent fl.2)).map
          fun bsha => TreeEntry.mk fl.1 modeRegular blobLit bsha) = some entries ∧
      ok.createTree req.repoName headCommit.treeSha entries = some newTreeSha ∧
      ok.createCommit req.repoName req.message newTreeSha [headCommit.sha] =
        some newCommit ∧
      s = newCommit.sha ∧
      GhCall.gitCreateCommit OWNER req.repoName req.message newTreeSha
        [headCommit.sha] ∈ trace ∧
      trace.filterMap updateRefArgsOf =
        [[OWNER, req.repoName, refOfBranch req.branch, newCommit.sha]] := by
  unfold pushFilesRun at h
  cases hrg : ok.repoGet req.repoName with
  | error st =>
    rw [hrg] at h
    by_cases hs : st = 404 <;>
      simp only [hs, if_true, if_false, reduceIte] at h <;>
      obtain ⟨h1, h2⟩ := Prod.mk.injEq .. ▸ h <;>
      rw [← h2] at hm <;> simp at hm
  | ok u =>
    rw [hrg] at h
    simp only [] at h
    cases href : ok.getRef req.repoName (refOfBranch req.branch) with
    | none =>
      rw [href] at h
      simp only [] at h
      obtain ⟨h1, h2⟩ := Prod.mk.injEq .. ▸ h
      rw [← h2] at hm
      simp at hm
    | some headSha =>
      rw [href] at h
      simp only [] at h
      cases hgc : ok.getCommit req.repoName headSha with
      | none =>
        rw [hgc] at h
        simp only [] at h
        obtain ⟨h1, h2⟩ := Prod.mk.injEq .. ▸ h
        rw [← h2] at hm
        simp at hm
      | some headCommit =>
        rw [hgc] at h
        simp only [] at h
        cases hsq : seqOpt (req.files.map fun fl =>
            (ok.createBlob req.repoName (encodeContent fl.2)).map
              fun bsha => TreeEntry.mk fl.1 modeRegular blobLit bsha) with
        | none =>
          rw [hsq] at h
          simp only [] at h
          obtain ⟨h1, h2⟩ := Prod.mk.injEq .. ▸ h
          rw [← h2] at hm
          simp at hm
        | some entries =>
          rw [hsq] at h
          simp only [] at h
          cases hct : ok.createTree req.repoName headCommit.treeSha entries with
          | none =>
            rw [hct] at h
            simp only [] at h
            obtain ⟨h1, h2⟩ := Prod.mk.injEq .. ▸ h
            rw [← h2] at hm
            simp at hm
          | some newTreeSha =>
            rw [hct] at h
            simp only [] at h
            cases hcc : ok.createCommit req.repoName req.message newTreeSha
                [headCommit.sha] with
            | none =>
              rw [hcc] at h
              simp only [] at h
              obtain ⟨h1, h2⟩ := Prod.mk.injEq .. ▸ h
              rw [← h2] at hm
              simp at hm
            | some newCommit =>
              rw [hcc] at h
              simp only [] at h
              have htr : trace =
                  [GhCall.reposGet OWNER req.repoName] ++
                  [GhCall.gitGetRef OWNER req.repoName (refOfBranch req.branch)] ++
                  [GhCall.gitGetCommit OWNER req.repoName headSha] ++
                  (req.files.map fun fl =>
                    GhCall.gitCreateBlob OWNER req.repoName
                      (encodeContent fl.2) base64Lit) ++
                  [GhCall.gitCreateTree OWNER req.repoName
                      headCommit.treeSha entries] ++
                  [GhCall.gitCreateCommit OWNER req.repoName req.message
                      newTreeSha [headCommit.sha]] ++
                  [GhCall.gitUpdateRef OWNER req.repoName
                      (refOfBranch req.branch) newCommit.sha] := by
                cases hur : ok.updateRef req.repoName (refOfBranch req.branch)
                    newCommit.sha with
                | none =>
                  rw [hur] at h
                  simp only [] at h
                  obtain ⟨h1, h2⟩ := Prod.mk.injEq .. ▸ h
                  rw [← h2]
                | some u2 =>
                  rw [hur] at h
                  simp only [] at h
                  obtain ⟨h1, h2⟩ := Prod.mk.injEq .. ▸ h
                  rw [← h2]
              rw [htr] at hm
              simp only [List.mem_append, List.mem_singleton, List.mem_map] at hm
              rcases hm with ((((((hm | hm) | hm) | ⟨a, ha, hm⟩) | hm) | hm) | hm)
              · cases hm
              · cases hm
              · cases hm
              · cases hm
              · cases hm
              · cases hm
              · rw [GhCall.gitUpdateRef.injEq] at hm
                obtain ⟨rfl, rfl, rfl, rfl⟩ := hm
                refine ⟨rfl, rfl, rfl, rfl, headSha, headCommit, entries,
                  newTreeSha, newCommit, rfl, hgc, rfl, hct, hcc, rfl, ?_, ?_⟩
                · rw [htr]
                  simp
                · rw [htr]
                  simp [List.filterMap_append, filterMap_updateRefArgs_blobs,
                    updateRefArgsOf]

/-- Every `updateRef` call issued by the `PUT /commit` handler happens only
after steps 1 through 5 all succeeded, targets `heads/<branch>` under
`OWNER`, and supplies exactly one sha: that of the commit created in step
5, whose single parent is the head sha resolved in step 1. -/
theorem commitRun_updateRef_analysis (ok : Octo) (req : CommitReq)
    (resp : CommitResp) (trace : List GhCall) (o r f s : JStr)
    (h : commitRun ok req = (resp, trace))
    (hm : GhCall.gitUpdateRef o r f s ∈ trace) :
    o = OWNER ∧ r = req.repoName ∧ f = refOfBranch req.branch ∧
    ok.repoGet req.repoName = .ok () ∧
    ∃ headSha headCommit blobSha newTreeSha newCommit,
      ok.getRef req.repoName (refOfBranch req.branch) = some headSha ∧
      ok.getCommit req.repoName headSha = some headCommit ∧
      ok.createBlob req.repoName (encodeContent req.content) = some blobSha ∧
      ok.createTree req.repoName headCommit.treeSha
        [TreeEntry.mk req.path modeRegular blobLit blobSha] = some newTreeSha ∧
      ok.createCommit req.repoName req.message newTreeSha [headSha] =
        some newCommit ∧
      s = newCommit.sha ∧
      GhCall.gitCreateCommit OWNER req.repoName req.message newTreeSha
        [headSha] ∈ trace ∧
      trace.filterMap updateRefArgsOf =
        [[OWNER, req.repoName, refOfBranch req.branch, newCommit.sha]] := by
  unfold commitRun at h
  cases hrg : ok.repoGet req.repoName with
  | error st =>
    rw [hrg] at h
    by_cases hs : st = 404 <;>
      simp only [hs, if_true, if_false, reduceIte] at h <;>
      obtain ⟨h1, h2⟩ := Prod.mk.injEq .. ▸ h <;>
      rw [← h2] at hm <;> simp at hm
  | ok u =>
    rw [hrg] at h
    simp only [] at h
    cases href : ok.getRef req.repoName (refOfBranch req.branch) with
    | none =>
      rw [href] at h
      simp only [] at h
      obtain ⟨h1, h2⟩ := Prod.mk.injEq .. ▸ h
      rw [← h2] at hm
      simp at hm
    | some headSha =>
      rw [href] at h
      simp only [] at h
      cases hgc : ok.getCommit req.repoName headSha with
      | none =>
        rw [hgc] at h
        simp only [] at h
        obtain ⟨h1, h2⟩ := Prod.mk.injEq .. ▸ h
        rw [← h2] at hm
        simp at hm
      | some headCommit =>
        rw [hgc] at h
        simp only [] at h
        cases hcb : ok.createBlob req.repoName (encodeContent req.content) with
        | none =>
          rw [hcb] at h
          simp only [] at h
          obtain ⟨h1, h2⟩ := Prod.mk.injEq .. ▸ h
          rw [← h2] at hm
          simp at hm
        | some blobSha =>
          rw [hcb] at h
          simp only [] at h
          cases hct : ok.createTree req.repoName headCommit.treeSha
              [TreeEntry.mk req.path modeRegular blobLit blobSha] with
          | none =>
            rw [hct] at h
            simp only [] at h
            obtain ⟨h1, h2⟩ := Prod.mk.injEq .. ▸ h
            rw [← h2] at hm
            simp at hm
          | some newTreeSha =>
            rw [hct] at h
            simp only [] at h
            cases hcc : ok.createCommit req.repoName req.message newTreeSha
                [headSha] with
            | none =>
              rw [hcc] at h
              simp only [] at h
              obtain ⟨h1, h2⟩ := Prod.mk.injEq .. ▸ h
              rw [← h2] at hm
              simp at hm
            | some newCommit =>
              rw [hcc] at h
              simp only [] at h
              have htr : trace =
                  [GhCall.reposGet OWNER req.repoName] ++
                  [GhCall.gitGetRef OWNER req.repoName (refOfBranch req.branch)] ++
                  [GhCall.gitGetCommit OWNER req.repoName headSha] ++
                  [GhCall.gitCreateBlob OWNER req.repoName
                      (encodeContent req.content) base64Lit] ++
                  [GhCall.gitCreateTree OWNER req.repoName headCommit.treeSha
                      [TreeEntry.mk req.path modeRegular blobLit blobSha]] ++
                  [GhCall.gitCreateCommit OWNER req.repoName req.message
                      newTreeSha [headSha]] ++
                  [GhCall.gitUpdateRef OWNER req.repoName
                      (refOfBranch req.branch) newCommit.sha] := by
                cases hur : ok.updateRef req.repoName (refOfBranch req.branch)
                    newCommit.sha with
                | none =>
                  rw [hur] at h
                  simp only [] at h
                  obtain ⟨h1, h2⟩ := Prod.mk.injEq .. ▸ h
                  rw [← h2]
                | some u2 =>
                  rw [hur] at h
                  simp only [] at h
                  obtain ⟨h1, h2⟩ := Prod.mk.injEq .. ▸ h
                  rw [← h2]
              rw [htr] at hm
              simp only [List.mem_append, List.mem_singleton] at hm
              rcases hm with ((((((hm | hm) | hm) | hm) | hm) | hm) | hm)
              · cases hm
              · cases hm
              · cases hm
              · cases hm
              · cases hm
              · cases hm
              · rw [GhCall.gitUpdateRef.injEq] at hm
                obtain ⟨rfl, rfl, rfl, rfl⟩ := hm
                refine ⟨rfl, rfl, rfl, rfl, headSha, headCommit, blobSha,
                  newTreeSha, newCommit, rfl, hgc, rfl, hct, hcc, rfl, ?_, ?_⟩
                · rw [htr]
                  simp
                · rw [htr]
                  simp [List.filterMap_append, updateRefArgsOf]

/-- Concrete validated push request: repo "r", branch "b", one file
("p", "c"), message "m". -/
def reqC1 : PushReq := ⟨[114], [98], [([112], [99])], [109]⟩

/-- Concrete validated single-file commit request with the same data. -/
def reqC1c : CommitReq := ⟨[114], [98], [112], [99], [109]⟩

/-- Claim C1 as stated is false: at a concrete run of both commit
endpoints, the head sha observed in step 1 is 72, yet the single
`updateRef` call supplies exactly the four strings owner, repo,
`heads/<branch>` and the NEW commit sha 90 — the observed sha 72 is not
among them, so no expected-old-value argument is supplied and the update
is not an explicit compare-and-swap by this code. -/
theorem c1_counterexample :
    okStub.getRef [114] (refOfBranch [98]) = some [72] ∧
    (pushFilesRun okStub reqC1).2.filterMap updateRefArgsOf =
      [[OWNER, [114], refOfBranch [98], [90]]] ∧
    ([72] : JStr) ∉ [OWNER, [114], refOfBranch [98], ([90] : JStr)] ∧
    (commitRun okStub reqC1c).2.filterMap updateRefArgsOf =
      [[OWNER, [114], refOfBranch [98], [90]]] := by
  refine ⟨rfl, by decide, by decide, by decide⟩

/-- Claim C1 amended: in both the multi-file and the single-file commit
handler, the final branch-ref update is a plain (non-force) `updateRef`
supplying only owner, repo, `heads/<branch>` and the new commit sha — no
expected-old-sha argument.  The head sha observed in step 1 reaches the
update only as the sole parent of the commit created in step 5, so
protection against lost updates is delegated to the default
fast-forward-only semantics of a non-forced ref update, not to an explicit
compare-and-swap value supplied by this code. -/
theorem c1_refupdate_no_expected_sha :
    (∀ (ok : Octo) (req : PushReq) (resp : PushResp) (trace : List GhCall)
       (o r f s : JStr),
       pushFilesRun ok req = (resp, trace) →
       GhCall.gitUpdateRef o r f s ∈ trace →
       ∃ headSha headCommit newTreeSha newCommit,
         ok.getRef req.repoName (refOfBranch req.branch) = some headSha ∧
         ok.getCommit req.repoName headSha = some headCommit ∧
         ok.createCommit req.repoName req.message newTreeSha
           [headCommit.sha] = some newCommit ∧
         o = OWNER ∧ r = req.repoName ∧ f = refOfBranch req.branch ∧
         s = newCommit.sha ∧
         trace.filterMap updateRefArgsOf =
           [[OWNER, req.repoName, refOfBranch req.branch, newCommit.sha]]) ∧
    (∀ (ok : Octo) (req : CommitReq) (resp : CommitResp) (trace : List GhCall)
       (o r f s : JStr),
       commitRun ok req = (resp, trace) →
       GhCall.gitUpdateRef o r f s ∈ trace →
       ∃ headSha newTreeSha newCommit,
         ok.getRef req.repoName (refOfBranch req.branch) = some headSha ∧
         ok.createCommit req.repoName req.message newTreeSha [headSha] =
           some newCommit ∧
         o = OWNER ∧ r = req.repoName ∧ f = refOfBranch req.branch ∧
         s = newCommit.sha ∧
         trace.filterMap updateRefArgsOf =
           [[OWNER, req.repoName, refOfBranch req.branch, newCommit.sha]]) := by
  constructor
  · intro ok req resp trace o r f s h hm
    obtain ⟨ho, hr, hf, hrg, headSha, headCommit, entries, newTreeSha,
      newCommit, h1, h2, h3, h4, h5, h6, h7, h8⟩ :=
      pushFilesRun_updateRef_analysis ok req resp trace o r f s h hm
    exact ⟨headSha, headCommit, newTreeSha, newCommit, h1, h2, h5, ho, hr,
      hf, h6, h8⟩
  · intro ok req resp trace o r f s h hm
    obtain ⟨ho, hr, hf, hrg, headSha, headCommit, blobSha, newTreeSha,
      newCommit, h1, h2, h3, h4, h5, h6, h7, h8⟩ :=
      commitRun_updateRef_analysis ok req resp trace o r f s h hm
    exact ⟨headSha, newTreeSha, newCommit, h1, h5, ho, hr, hf, h6, h8⟩

/-- Witness for `c1_refupdate_no_expected_sha` at a concrete run. -/
theorem c1_refupdate_no_expected_sha_witness :
    ∃ headSha headCommit newTreeSha newCommit,
      okStub.getRef reqC1.repoName (refOfBranch reqC1.branch) = some headSha ∧
      okStub.getCommit reqC1.repoName headSha = some headCommit ∧
      okStub.createCommit reqC1.repoName reqC1.message newTreeSha
        [headCommit.sha] = some newCommit ∧
      (OWNER : JStr) = OWNER ∧
      ([114] : JStr) = reqC1.repoName ∧
      refOfBranch [98] = refOfBranch reqC1.branch ∧
      ([90] : JStr) = newCommit.sha ∧
      (pushFilesRun okStub reqC1).2.filterMap updateRefArgsOf =
        [[OWNER, reqC1.repoName, refOfBranch reqC1.branch, newCommit.sha]] :=
  c1_refupdate_no_expected_sha.1 okStub reqC1 (pushFilesRun okStub reqC1).1
    (pushFilesRun okStub reqC1).2 OWNER [114] (refOfBranch [98]) [90] rfl
    (by decide)

/-- Claim C3: the updateRef call is issued only after every one of steps 1
through 5 (repo lookup, head resolution, base-commit fetch, blob creation,
tree creation, commit creation) succeeded; contrapositively, on every run
where one of those steps fails the trace contains no ref update at all, so
the branch reference is left untouched — in both commit endpoints. -/
theorem c3_no_update_before_steps :
    (∀ (ok : Octo) (req : PushReq) (resp : PushResp) (trace : List GhCall)
       (o r f s : JStr),
       pushFilesRun ok req = (resp, trace) →
       GhCall.gitUpdateRef o r f s ∈ trace →
       ok.repoGet req.repoName = .ok () ∧
       ∃ headSha headCommit entries newTreeSha newCommit,
         ok.getRef req.repoName (refOfBranch req.branch) = some headSha ∧
         ok.getCommit req.repoName headSha = some headCommit ∧
         seqOpt (req.files.map fun fl =>
           (ok.createBlob req.repoName (encodeContent fl.2)).map
             fun bsha => TreeEntry.mk fl.1 modeRegular blobLit bsha) =
           some entries ∧
         ok.createTree req.repoName headCommit.treeSha entries =
           some newTreeSha ∧
         ok.createCommit req.repoName req.message newTreeSha
           [headCommit.sha] = some newCommit) ∧
    (∀ (ok : Octo) (req : CommitReq) (resp : CommitResp) (trace : List GhCall)
       (o r f s : JStr),
       commitRun ok req = (resp, trace) →
       GhCall.gitUpdateRef o r f s ∈ trace →
       ok.repoGet req.repoName = .ok () ∧
       ∃ headSha headCommit blobSha newTreeSha newCommit,
         ok.getRef req.repoName (refOfBranch req.branch) = some headSha ∧
         ok.getCommit req.repoName headSha = some headCommit ∧
         ok.createBlob req.repoName (encodeContent req.content) =
           some blobSha ∧
         ok.createTree req.repoName headCommit.treeSha
           [TreeEntry.mk req.path modeRegular blobLit blobSha] =
           some newTreeSha ∧
         ok.createCommit req.repoName req.message newTreeSha [headSha] =
           some newCommit) := by
  constructor
  · intro ok req resp trace o r f s h hm
    obtain ⟨ho, hr, hf, hrg, headSha, headCommit, entries, newTreeSha,
      newCommit, h1, h2, h3, h4, h5, h6, h7, h8⟩ :=
      pushFilesRun_updateRef_analysis ok req resp trace o r f s h hm
    exact ⟨hrg, headSha, headCommit, entries, newTreeSha, newCommit,
      h1, h2, h3, h4, h5⟩
  · intro ok req resp trace o r f s h hm
    obtain ⟨ho, hr, hf, hrg, headSha, headCommit, blobSha, newTreeSha,
      newCommit, h1, h2, h3, h4, h5, h6, h7, h8⟩ :=
      commitRun_updateRef_analysis ok req resp trace o r f s h hm
    exact ⟨hrg, headSha, headCommit, blobSha, newTreeSha, newCommit,
      h1, h2, h3, h4, h5⟩

/-- Witness for `c3_no_update_before_steps` at a concrete run. -/
theorem c3_no_update_before_steps_witness :
    okStub.repoGet reqC1c.repoName = .ok () ∧
    ∃ headSha headCommit blobSha newTreeSha newCommit,
      okStub.getRef reqC1c.repoName (refOfBranch reqC1c.branch) =
        some headSha ∧
      okStub.getCommit reqC1c.repoName headSha = some headCommit ∧
      okStub.createBlob reqC1c.repoName (encodeContent reqC1c.content) =
        some blobSha ∧
      okStub.createTree reqC1c.repoName headCommit.treeSha
        [TreeEntry.mk reqC1c.path modeRegular blobLit blobSha] =
        some newTreeSha ∧
      okStub.createCommit reqC1c.repoName reqC1c.message newTreeSha
        [headSha] = some newCommit :=
  c3_no_update_before_steps.2 okStub reqC1c (commitRun okStub reqC1c).1
    (commitRun okStub reqC1c).2 OWNER [114] (refOfBranch [98]) [90] rfl
    (by decide)
